import Mathlib

/-!
# Cattown markdown tokenizer — formal model

Shallow embedding of the markdown tokenizer of the Cattown repository
(`src/tokenizer.js`, function `tokenizeUserInput` with its inner helpers
`tokenizeInline`, `consumeBlockquote`, `consumeUnorderedList`,
`consumeOrderedList`), together with a model, built from the
specification's words, of the parts of the current tokenizer whose
implementation is not part of the snapshot (fenced code blocks, tables,
backslash escapes, indentation-nested lists, extended inline markers);
those definitions carry a doc comment starting with `Modelled from the
spec:`.

Strings are modelled as `List Char`; the JavaScript whitespace class
`\s` and `String.prototype.trim` are modelled on the ASCII whitespace
characters (space, tab, newline, carriage return, vertical tab, form
feed), which covers every input appearing in the claims.  The block
driver recurses through blockquote contents, and that recursion can
genuinely diverge (see the claim about totality), so the driver takes an
explicit fuel parameter and returns `none` when fuel runs out; all other
functions are total.
-/

namespace Cattown

/-- ASCII fragment of the JavaScript whitespace class `\s` (and of the
characters removed by `String.prototype.trim`). -/
def isSpaceChar (c : Char) : Bool :=
  c == ' ' || c == '\t' || c == '\n' || c == '\r' ||
  c == Char.ofNat 11 || c == Char.ofNat 12

/-- The JavaScript digit class `\d` (exactly `0`–`9`). -/
def isDigitChar (c : Char) : Bool :=
  '0' ≤ c && c ≤ '9'

/-- The backquote character, U+0060. -/
def btick : Char := Char.ofNat 96

/-- `String.prototype.trim`: strip leading and trailing whitespace. -/
def trimL (l : List Char) : List Char :=
  ((l.dropWhile isSpaceChar).reverse.dropWhile isSpaceChar).reverse

/-- `input.split("\n")`: split a character list on newline characters;
`""` splits to `[""]`, a trailing newline produces a final empty line. -/
def splitLines : List Char → List (List Char)
  | [] => [[]]
  | c :: rest =>
    match splitLines rest with
    | [] => [[c]]
    | h :: t => if c = '\n' then [] :: h :: t else (c :: h) :: t

/-- `lines.join("\n")`. -/
def joinLines : List (List Char) → List Char
  | [] => []
  | [l] => l
  | l :: rest => l ++ '\n' :: joinLines rest

/-- Whether `pat` is a prefix of `s` (character-by-character). -/
def listStartsWith : List Char → List Char → Bool
  | [], _ => true
  | _ :: _, [] => false
  | p :: ps, c :: cs => p == c && listStartsWith ps cs

/-- Scan helper for `indexOfFrom`: first index `≥ i` (in the original
list) at which `pat` starts, where `s` is the suffix beginning at `i`. -/
def indexOfAux (pat : List Char) : List Char → Nat → Option Nat
  | s, i =>
    if listStartsWith pat s then some i
    else
      match s with
      | [] => none
      | _ :: tl => indexOfAux pat tl (i + 1)

/-- JavaScript `String.prototype.indexOf(pat, start)` (for nonempty
`pat`): the first occurrence of `pat` at or after `start`, if any. -/
def indexOfFrom (t pat : List Char) (start : Nat) : Option Nat :=
  indexOfAux pat (t.drop start) start

/-- Convert a string literal to the character-list representation. -/
def str (s : String) : List Char := s.toList

/-! ## Inline tokens

One inline-token type is shared by the model of the tokenizer in src
and by the spec-modelled inline lexer; the tokenizer in src simply never
emits `highlight`, `subscript` or `superscript` tokens, and always fills
`link` content with a recursively lexed list (as the code does). -/

/-- Inline tokens (`type` discriminant of the JavaScript objects). -/
inductive InlineTok where
  | text (content : List Char)
  | boldItalic (content : List InlineTok)
  | bold (content : List InlineTok)
  | italic (content : List InlineTok)
  | strikethrough (content : List InlineTok)
  | highlight (content : List InlineTok)
  | subscript (content : List InlineTok)
  | superscript (content : List InlineTok)
  | code (content : List Char)
  | link (content : List InlineTok) (href : List Char)
  | image (alt : List Char) (src : List Char)
  deriving Repr

/-! ## The inline lexer of `src/tokenizer.js` (`tokenizeInline`)

The atomic patterns are the regexes
`!\[([^\]]*)\]\(([^)]+)\)` (image), `\[([^\]]+)\]\(([^)]+)\)` (link) and
`` `([^`]+)` `` (code), searched in that order keeping the strictly
earliest match; the styled markers are searched by `indexOf` pairs in
the order boldItalic `***`/`___`, bold `**`/`__`, italic `*`/`_`,
strikethrough `~~`/`~`, again keeping the strictly earliest start. -/

/-- Result of matching one atomic regex at the head of a suffix:
payload groups and the length of `match[0]`. -/
inductive AtomKind where
  | image (alt src : List Char) (len : Nat)
  | link (txt href : List Char) (len : Nat)
  | code (content : List Char) (len : Nat)
  deriving Repr, DecidableEq

/-- Regex `!\[([^\]]*)\]\(([^)]+)\)` anchored at the head of `s`:
`!`, `[`, any run without `]` (possibly empty), `]`, `(`, a nonempty run
without `)`, `)`. -/
def matchImage (s : List Char) : Option AtomKind :=
  match s with
  | '!' :: '[' :: rest =>
    let alt := rest.takeWhile (fun c => !(c == ']'))
    match rest.drop alt.length with
    | ']' :: '(' :: rest2 =>
      let src := rest2.takeWhile (fun c => !(c == ')'))
      if src.isEmpty then none
      else
        match rest2.drop src.length with
        | ')' :: _ => some (.image alt src (alt.length + src.length + 5))
        | _ => none
    | _ => none
  | _ => none

/-- Regex `\[([^\]]+)\]\(([^)]+)\)` anchored at the head of `s`. -/
def matchLink (s : List Char) : Option AtomKind :=
  match s with
  | '[' :: rest =>
    let txt := rest.takeWhile (fun c => !(c == ']'))
    if txt.isEmpty then none
    else
      match rest.drop txt.length with
      | ']' :: '(' :: rest2 =>
        let href := rest2.takeWhile (fun c => !(c == ')'))
        if href.isEmpty then none
        else
          match rest2.drop href.length with
          | ')' :: _ => some (.link txt href (txt.length + href.length + 4))
          | _ => none
      | _ => none
  | _ => none

/-- Regex `` `([^`]+)` `` anchored at the head of `s`. -/
def matchCode (s : List Char) : Option AtomKind :=
  match s with
  | c :: rest =>
    if c == btick then
      let content := rest.takeWhile (fun x => !(x == btick))
      if content.isEmpty then none
      else
        match rest.drop content.length with
        | d :: _ => if d == btick then some (.code content (content.length + 2)) else none
        | [] => none
    else none
  | [] => none

/-- `regex.exec(str)` leftmost-match search: try the anchored matcher at
every position left to right. -/
def firstMatchAux (f : List Char → Option AtomKind) : List Char → Nat → Option (Nat × AtomKind)
  | s, i =>
    match f s with
    | some a => some (i, a)
    | none =>
      match s with
      | [] => none
      | _ :: tl => firstMatchAux f tl (i + 1)

/-- Leftmost match of an anchored matcher in `t`. -/
def firstMatch (f : List Char → Option AtomKind) (t : List Char) : Option (Nat × AtomKind) :=
  firstMatchAux f t 0

/-- Keep the earlier of two candidate matches; a later candidate
replaces the current one only when strictly earlier (mirrors the
iteration `if (match.index < earliest.index)`). -/
def keepEarlier (a b : Option (Nat × AtomKind)) : Option (Nat × AtomKind) :=
  match a, b with
  | none, b => b
  | some x, none => some x
  | some (i, x), some (j, y) => if j < i then some (j, y) else some (i, x)

/-- `findEarliestMatch(atomicPatterns, str)` of `src/tokenizer.js`:
earliest match among image, link and inline code, ties favouring the
pattern listed first. -/
def findEarliestAtomic (t : List Char) : Option (Nat × AtomKind) :=
  keepEarlier (keepEarlier (firstMatch matchImage t) (firstMatch matchLink t))
    (firstMatch matchCode t)

/-- Styled-span families of `src/tokenizer.js`. -/
inductive STy where
  | boldItalic
  | bold
  | italic
  | strikethrough
  deriving Repr, DecidableEq

/-- A styled-marker candidate: family, marker characters, index of the
opening occurrence, index of the closing occurrence. -/
structure StyledMatch where
  ty : STy
  marker : List Char
  startIdx : Nat
  endIdx : Nat
  deriving Repr, DecidableEq

/-- The marker table of `src/tokenizer.js` (`styledMarkers`), in search
order.  Note that a single `~` is listed under strikethrough. -/
def srcMarkers : List (STy × List Char) :=
  [(.boldItalic, ['*', '*', '*']), (.boldItalic, ['_', '_', '_']),
   (.bold, ['*', '*']), (.bold, ['_', '_']),
   (.italic, ['*']), (.italic, ['_']),
   (.strikethrough, ['~', '~']), (.strikethrough, ['~'])]

/-- Candidate for one marker: first occurrence, then the next occurrence
of the same marker after it. -/
def markerCandidate (t : List Char) (ty : STy) (mk : List Char) : Option StyledMatch :=
  match indexOfFrom t mk 0 with
  | none => none
  | some s =>
    match indexOfFrom t mk (s + mk.length) with
    | none => none
    | some e => some ⟨ty, mk, s, e⟩

/-- Keep the candidate with the strictly smaller start index (mirrors
`if (startIndex < earliest.startIndex)`). -/
def keepEarlierStyled (a b : Option StyledMatch) : Option StyledMatch :=
  match a, b with
  | none, b => b
  | some x, none => some x
  | some x, some y => if y.startIdx < x.startIdx then some y else some x

/-- `findEarliestStyledMarker` of `src/tokenizer.js`: fold the marker
table keeping the strictly earliest candidate. -/
def findEarliestStyled (t : List Char) : Option StyledMatch :=
  srcMarkers.foldl (fun acc p => keepEarlierStyled acc (markerCandidate t p.1 p.2)) none

/-- The resolved earliest match of one scan step. -/
inductive Found where
  | atom (idx : Nat) (a : AtomKind)
  | styled (m : StyledMatch)

/-- Resolution between the earliest atomic and the earliest styled
match: the atomic wins ties (`atomicMatch.index <= styledMatch.startIndex`). -/
def chooseMatch (t : List Char) : Option Found :=
  match findEarliestAtomic t, findEarliestStyled t with
  | some (i, a), some m => if i ≤ m.startIdx then some (.atom i a) else some (.styled m)
  | some (i, a), none => some (.atom i a)
  | none, some m => some (.styled m)
  | none, none => none

/-- Wrap recursively lexed content in the token of a styled family. -/
def mkStyled (ty : STy) (inner : List InlineTok) : InlineTok :=
  match ty with
  | .boldItalic => .boldItalic inner
  | .bold => .bold inner
  | .italic => .italic inner
  | .strikethrough => .strikethrough inner

/-- The text token for the characters before a match, omitted when
empty (`if (preText)`). -/
def preTok (t : List Char) (i : Nat) : List InlineTok :=
  if i = 0 then [] else [.text (t.take i)]

/-- `tokenizeInline` of `src/tokenizer.js`, with step fuel (every
recursive call strictly shortens the text, so `text.length + 1` fuel is
always enough; fuel 0 yields `[]`). -/
def tokenizeInlineF : Nat → List Char → List InlineTok
  | 0, _ => []
  | f + 1, t =>
    if t.isEmpty then []
    else
      match chooseMatch t with
      | none => [.text t]
      | some (.atom i (.image alt src len)) =>
        preTok t i ++ [.image alt src] ++ tokenizeInlineF f (t.drop (i + len))
      | some (.atom i (.link txt href len)) =>
        preTok t i ++ [.link (tokenizeInlineF f txt) href] ++ tokenizeInlineF f (t.drop (i + len))
      | some (.atom i (.code content len)) =>
        preTok t i ++ [.code content] ++ tokenizeInlineF f (t.drop (i + len))
      | some (.styled m) =>
        let inner := (t.drop (m.startIdx + m.marker.length)).take (m.endIdx - (m.startIdx + m.marker.length))
        preTok t m.startIdx ++ [mkStyled m.ty (tokenizeInlineF f inner)] ++
          tokenizeInlineF f (t.drop (m.endIdx + m.marker.length))

/-- `tokenizeInline` with always-sufficient fuel. -/
def tokenizeInline (t : List Char) : List InlineTok :=
  tokenizeInlineF (t.length + 1) t

/-! ## The block driver of `src/tokenizer.js` (`tokenizeUserInput`)

Per-line dispatch in source order: blank skip, horizontal rule
`^([*\-_])\1{2,}$`, blockquote `^>\s?`, ordered list `^\d+\.\s+`,
unordered list `^[-*]\s+`, heading `^(#{1,6})\s+(.*)$`, else paragraph.
All tests run on the trimmed line.  The blockquote branch collects
lines, strips the marker from each raw line, rejoins them and recurses
into `tokenizeUserInput` — that recursion is the one place fuel is
really needed, but to keep the definition structural (and hence
kernel-computable) one unit of fuel is consumed at every step. -/

/-- Block tokens (`megaType` discriminant) of `src/tokenizer.js`. -/
inductive BlockTok where
  | hr
  | blockquote (content : List BlockTok)
  | olist (items : List (List InlineTok))
  | list (items : List (List InlineTok))
  | heading (level : Nat) (content : List InlineTok)
  | paragraph (content : List InlineTok)
  deriving Repr

/-- Regex test `^([*\-_])\1{2,}$`: at least three copies of one rule
character and nothing else. -/
def isHrLine : List Char → Bool
  | [] => false
  | c :: rest =>
    (c == '*' || c == '-' || c == '_') && rest.all (fun d => d == c) && rest.length + 1 ≥ 3

/-- Regex test `^>\s?` (equivalent to: starts with `>`). -/
def isBqStart : List Char → Bool
  | [] => false
  | c :: _ => c == '>'

/-- Regex `^(\d+)\.\s+(.*)$` (and its test form `^\d+\.\s+`): returns
`match[2]`, the text after the dot and the maximal whitespace run. -/
def parseOlistItem (tr : List Char) : Option (List Char) :=
  let ds := tr.takeWhile isDigitChar
  if ds.isEmpty then none
  else
    match tr.drop ds.length with
    | '.' :: rest =>
      match rest with
      | c :: _ => if isSpaceChar c then some (rest.dropWhile isSpaceChar) else none
      | [] => none
    | _ => none

/-- Regex `^([-*])\s+(.*)$` (and its test form `^[-*]\s+`): returns
`match[2]`. -/
def parseUlistItem (tr : List Char) : Option (List Char) :=
  match tr with
  | c :: rest =>
    if c == '-' || c == '*' then
      match rest with
      | d :: _ => if isSpaceChar d then some (rest.dropWhile isSpaceChar) else none
      | [] => none
    else none
  | [] => none

/-- Regex `^(#{1,6})\s+(.*)$`: between one and six `#` characters
followed by whitespace; with seven or more leading `#` the regex cannot
match (every shorter `#` prefix is followed by another `#`).  Returns
the level and `match[2]`. -/
def parseHeading (tr : List Char) : Option (Nat × List Char) :=
  let hs := tr.takeWhile (fun c => c == '#')
  if 1 ≤ hs.length ∧ hs.length ≤ 6 then
    match tr.drop hs.length with
    | c :: rest2 =>
      if isSpaceChar c then some (hs.length, (c :: rest2).dropWhile isSpaceChar)
      else none
    | [] => none
  else none

/-- A line collected by `consumeBlockquote`: trimmed form starts with
`>`, or the line is blank. -/
def bqCollect (l : List Char) : Bool :=
  isBqStart (trimL l) || (trimL l).isEmpty

/-- `line.replace(/^>\s?/, "")` on the raw line: drop one leading `>`
and at most one following whitespace character; leave other lines
unchanged. -/
def stripBq (l : List Char) : List Char :=
  match l with
  | '>' :: rest =>
    match rest with
    | c :: rest2 => if isSpaceChar c then rest2 else rest
    | [] => []
  | _ => l

/-- `tokenizeUserInput` of `src/tokenizer.js` on an already split line
array, with fuel; `none` means fuel ran out (the JavaScript original
can genuinely fail to terminate, so no fuel bound suffices for all
inputs). -/
def tokenizeBlocksF : Nat → List (List Char) → Option (List BlockTok)
  | 0, _ => none
  | _ + 1, [] => some []
  | f + 1, l :: rest =>
    let tr := trimL l
    if tr.isEmpty = true then tokenizeBlocksF f rest
    else if isHrLine tr = true then
      (tokenizeBlocksF f rest).map (fun ts => .hr :: ts)
    else if isBqStart tr = true then
      let collected := (l :: rest).takeWhile bqCollect
      let remaining := (l :: rest).dropWhile bqCollect
      match tokenizeBlocksF f (splitLines (joinLines (collected.map stripBq))) with
      | none => none
      | some content =>
        (tokenizeBlocksF f remaining).map (fun ts => .blockquote content :: ts)
    else if (parseOlistItem tr).isSome = true then
      let collected := (l :: rest).takeWhile (fun x => (parseOlistItem (trimL x)).isSome)
      let remaining := (l :: rest).dropWhile (fun x => (parseOlistItem (trimL x)).isSome)
      (tokenizeBlocksF f remaining).map (fun ts =>
        .olist (collected.map (fun x => tokenizeInline ((parseOlistItem (trimL x)).getD []))) :: ts)
    else if (parseUlistItem tr).isSome = true then
      let collected := (l :: rest).takeWhile (fun x => (parseUlistItem (trimL x)).isSome)
      let remaining := (l :: rest).dropWhile (fun x => (parseUlistItem (trimL x)).isSome)
      (tokenizeBlocksF f remaining).map (fun ts =>
        .list (collected.map (fun x => tokenizeInline ((parseUlistItem (trimL x)).getD []))) :: ts)
    else
      match parseHeading tr with
      | some (lvl, content) =>
        (tokenizeBlocksF f rest).map (fun ts => .heading lvl (tokenizeInline content) :: ts)
      | none =>
        (tokenizeBlocksF f rest).map (fun ts => .paragraph (tokenizeInline tr) :: ts)

/-- `tokenizeUserInput` on a string, with explicit fuel. -/
def tokenizeF (fuel : Nat) (s : String) : Option (List BlockTok) :=
  tokenizeBlocksF fuel (splitLines s.toList)

/-- `tokenizeUserInput` with a generous default fuel (ample for every
terminating run on the concrete inputs considered here). -/
def tokenize (s : String) : Option (List BlockTok) :=
  tokenizeF ((s.length + 2) * (s.length + 2)) s

/-! ## Spec-modelled components

The snapshot's `src/tokenizer.js` holds earlier revisions of the
tokenizer; the current revision — the one exercised by the repository's
tests (fenced `codeBlock` tokens, `table` tokens, task lists, nested
list items, subscript/superscript/highlight markers, backslash escapes)
and consumed by `src/tokensToHTML.js` — is not part of the snapshot.
The definitions below model those missing parts from the specification
(§3–§4) and are marked `Modelled from the spec:`. -/

/-- Modelled from the spec: a working character of the inline lexer.
`esc c` is the reserved sentinel standing for the escaped character `c`
(spec §4.5 escape handling): sentinels are invisible to all marker and
pattern matching and are expanded back to their literal character when
text is emitted. -/
inductive EChar where
  | ch (c : Char)
  | esc (c : Char)
  deriving Repr, DecidableEq

/-- Modelled from the spec: escape preprocessing — replace every
`\X` by a sentinel recording `X`; a trailing backslash with no
following character is kept literally (spec §4.5 policy (c)). -/
def preprocessEsc : List Char → List EChar
  | [] => []
  | c :: [] => if c = '\\' then [.ch '\\'] else [.ch c]
  | c :: d :: rest =>
    if c = '\\' then .esc d :: preprocessEsc rest
    else .ch c :: preprocessEsc (d :: rest)

/-- Modelled from the spec: sentinel expansion when emitting text. -/
def expandE (l : List EChar) : List Char :=
  l.map (fun e => match e with | .ch c => c | .esc c => c)

/-- A plain (non-sentinel) occurrence of the character `c`. -/
def eIsChar (e : EChar) (c : Char) : Bool :=
  match e with
  | .ch d => d == c
  | .esc _ => false

/-- Marker prefix test over working characters: only plain characters
match marker characters (sentinels never do). -/
def eStartsWith : List Char → List EChar → Bool
  | [], _ => true
  | _ :: _, [] => false
  | p :: ps, e :: es => eIsChar e p && eStartsWith ps es

/-- Scan helper for `eIndexOfFrom`. -/
def eIndexOfAux (pat : List Char) : List EChar → Nat → Option Nat
  | s, i =>
    if eStartsWith pat s then some i
    else
      match s with
      | [] => none
      | _ :: tl => eIndexOfAux pat tl (i + 1)

/-- First occurrence of the marker `pat` at or after `start`, over
working characters. -/
def eIndexOfFrom (t : List EChar) (pat : List Char) (start : Nat) : Option Nat :=
  eIndexOfAux pat (t.drop start) start

/-- Atomic-pattern match over working characters (payloads are expanded
to plain characters; the classes `[^\]]`, `[^)]`, `` [^`] `` accept
sentinels, since the sentinel is not the excluded delimiter). -/
inductive EAtom where
  | image (alt src : List Char) (len : Nat)
  | link (txt : List EChar) (href : List Char) (len : Nat)
  | code (content : List Char) (len : Nat)
  deriving Repr, DecidableEq

/-- Modelled from the spec: image pattern `![alt](src)` anchored at the
head; the alt text stays a plain string (spec §4.5 policy (b)). -/
def eMatchImage (s : List EChar) : Option EAtom :=
  match s with
  | e1 :: e2 :: rest =>
    if eIsChar e1 '!' && eIsChar e2 '[' then
      let alt := rest.takeWhile (fun e => !(eIsChar e ']'))
      match rest.drop alt.length with
      | b1 :: b2 :: rest2 =>
        if eIsChar b1 ']' && eIsChar b2 '(' then
          let src := rest2.takeWhile (fun e => !(eIsChar e ')'))
          if src.isEmpty then none
          else
            match rest2.drop src.length with
            | b3 :: _ =>
              if eIsChar b3 ')' then
                some (.image (expandE alt) (expandE src) (alt.length + src.length + 5))
              else none
            | [] => none
        else none
      | _ => none
    else none
  | _ => none

/-- Modelled from the spec: link pattern `[text](href)` anchored at the
head; the link text is inline-lexed recursively, so it is kept as
working characters. -/
def eMatchLink (s : List EChar) : Option EAtom :=
  match s with
  | e1 :: rest =>
    if eIsChar e1 '[' then
      let txt := rest.takeWhile (fun e => !(eIsChar e ']'))
      if txt.isEmpty then none
      else
        match rest.drop txt.length with
        | b1 :: b2 :: rest2 =>
          if eIsChar b1 ']' && eIsChar b2 '(' then
            let href := rest2.takeWhile (fun e => !(eIsChar e ')'))
            if href.isEmpty then none
            else
              match rest2.drop href.length with
              | b3 :: _ =>
                if eIsChar b3 ')' then
                  some (.link txt (expandE href) (txt.length + href.length + 4))
                else none
              | [] => none
          else none
        | _ => none
    else none
  | [] => none

/-- Modelled from the spec: inline-code pattern anchored at the head;
content is an opaque leaf string. -/
def eMatchCode (s : List EChar) : Option EAtom :=
  match s with
  | e1 :: rest =>
    if eIsChar e1 btick then
      let content := rest.takeWhile (fun e => !(eIsChar e btick))
      if content.isEmpty then none
      else
        match rest.drop content.length with
        | b :: _ => if eIsChar b btick then some (.code (expandE content) (content.length + 2)) else none
        | [] => none
    else none
  | [] => none

/-- Leftmost-match scan of an anchored matcher over working characters. -/
def eFirstMatchAux (f : List EChar → Option EAtom) : List EChar → Nat → Option (Nat × EAtom)
  | s, i =>
    if (f s).isSome then (f s).map (fun a => (i, a))
    else
      match s with
      | [] => none
      | _ :: tl => eFirstMatchAux f tl (i + 1)

/-- Keep the earlier of two atomic candidates (strict comparison, ties
favour the pattern listed first). -/
def eKeepEarlier (a b : Option (Nat × EAtom)) : Option (Nat × EAtom) :=
  match a, b with
  | none, b => b
  | some x, none => some x
  | some (i, x), some (j, y) => if j < i then some (j, y) else some (i, x)

/-- Modelled from the spec: earliest atomic candidate (image, link,
inline code; spec §4.5). -/
def eFindAtomic (t : List EChar) : Option (Nat × EAtom) :=
  eKeepEarlier (eKeepEarlier (eFirstMatchAux eMatchImage t 0) (eFirstMatchAux eMatchLink t 0))
    (eFirstMatchAux eMatchCode t 0)

/-- Styled families of the spec's marker table (§4.5). -/
inductive SpecTy where
  | boldItalic
  | bold
  | italic
  | strikethrough
  | highlight
  | subscript
  | superscript
  deriving Repr, DecidableEq

/-- Modelled from the spec: the styled-marker precedence table —
boldItalic (`***`/`___`) > bold (`**`/`__`) > italic (`*`/`_`) >
strikethrough (`~~` only) > highlight (`==`) > subscript (`~`) >
superscript (`^`). -/
def specMarkers : List (SpecTy × List Char) :=
  [(.boldItalic, ['*', '*', '*']), (.boldItalic, ['_', '_', '_']),
   (.bold, ['*', '*']), (.bold, ['_', '_']),
   (.italic, ['*']), (.italic, ['_']),
   (.strikethrough, ['~', '~']),
   (.highlight, ['=', '=']),
   (.subscript, ['~']),
   (.superscript, ['^'])]

/-- A styled candidate over working characters. -/
structure ESty where
  ty : SpecTy
  marker : List Char
  startIdx : Nat
  endIdx : Nat
  deriving Repr, DecidableEq

/-- Modelled from the spec: candidate for one marker — first occurrence
and next occurrence of the same marker; subscript and superscript
require non-empty inner content, a pair with zero characters between is
rejected (the marker stays literal text). -/
def eMarkerCandidate (t : List EChar) (ty : SpecTy) (mk : List Char) : Option ESty :=
  match eIndexOfFrom t mk 0 with
  | none => none
  | some s =>
    match eIndexOfFrom t mk (s + mk.length) with
    | none => none
    | some e =>
      if (ty = SpecTy.subscript ∨ ty = SpecTy.superscript) ∧ e = s + mk.length then none
      else some ⟨ty, mk, s, e⟩

/-- Keep the styled candidate with the strictly smaller start (ties
favour the earlier entry of the precedence table). -/
def eKeepEarlierStyled (a b : Option ESty) : Option ESty :=
  match a, b with
  | none, b => b
  | some x, none => some x
  | some x, some y => if y.startIdx < x.startIdx then some y else some x

/-- Modelled from the spec: earliest styled candidate, ties resolved by
the precedence table. -/
def eFindStyled (t : List EChar) : Option ESty :=
  specMarkers.foldl (fun acc p => eKeepEarlierStyled acc (eMarkerCandidate t p.1 p.2)) none

/-- Resolved earliest match of one scan step of the spec inline lexer. -/
inductive EFound where
  | atom (idx : Nat) (a : EAtom)
  | styled (m : ESty)

/-- Modelled from the spec: resolution between atomic and styled
candidates — the earlier start wins, ties favour the atomic (§4.5). -/
def eChoose (t : List EChar) : Option EFound :=
  match eFindAtomic t, eFindStyled t with
  | some (i, a), some m => if i ≤ m.startIdx then some (.atom i a) else some (.styled m)
  | some (i, a), none => some (.atom i a)
  | none, some m => some (.styled m)
  | none, none => none

/-- Wrap recursively lexed content in the token of a spec styled
family. -/
def mkSpecStyled (ty : SpecTy) (inner : List InlineTok) : InlineTok :=
  match ty with
  | .boldItalic => .boldItalic inner
  | .bold => .bold inner
  | .italic => .italic inner
  | .strikethrough => .strikethrough inner
  | .highlight => .highlight inner
  | .subscript => .subscript inner
  | .superscript => .superscript inner

/-- Text run before a match, expanded and omitted when empty. -/
def ePreTok (t : List EChar) (i : Nat) : List InlineTok :=
  if i = 0 then [] else [.text (expandE (t.take i))]

/-- Modelled from the spec: the inline lexer (§4.5) over working
characters, with step fuel (every recursive argument is strictly
shorter, so `length + 1` fuel always suffices; fuel 0 yields `[]`).
The spec realises the recursion with an explicit work stack to bound
native call depth; the token tree produced is the same. -/
def specInlineF : Nat → List EChar → List InlineTok
  | 0, _ => []
  | f + 1, t =>
    if t.isEmpty then []
    else
      match eChoose t with
      | none => [.text (expandE t)]
      | some (.atom i (.image alt src len)) =>
        ePreTok t i ++ [.image alt src] ++ specInlineF f (t.drop (i + len))
      | some (.atom i (.link txt href len)) =>
        ePreTok t i ++ [.link (specInlineF f txt) href] ++ specInlineF f (t.drop (i + len))
      | some (.atom i (.code content len)) =>
        ePreTok t i ++ [.code content] ++ specInlineF f (t.drop (i + len))
      | some (.styled m) =>
        let inner := (t.drop (m.startIdx + m.marker.length)).take (m.endIdx - (m.startIdx + m.marker.length))
        ePreTok t m.startIdx ++ [mkSpecStyled m.ty (specInlineF f inner)] ++
          specInlineF f (t.drop (m.endIdx + m.marker.length))

/-- Modelled from the spec: `tokenizeInline` — preprocess escapes, then
lex with always-sufficient fuel. -/
def specInline (t : List Char) : List InlineTok :=
  specInlineF ((preprocessEsc t).length + 1) (preprocessEsc t)

/-! ## Spec-modelled block level (§3, §4.1–§4.4) -/

/-- Modelled from the spec: a list item — inline content, an optional
task-list check state, and nested child items (§3 `ListItem`). -/
inductive SListItem where
  | mk (content : List InlineTok) (checked : Option Bool) (items : List SListItem)
  deriving Repr

/-- Modelled from the spec: block tokens of the current tokenizer (§3
`BlockToken`). -/
inductive SBlock where
  | heading (level : Nat) (content : List InlineTok)
  | paragraph (content : List InlineTok)
  | codeBlock (language : List Char) (content : List Char)
  | horizontalRule
  | blockquote (content : List SBlock)
  | list (ordered : Bool) (items : List SListItem)
  | table (header : List (List InlineTok)) (rows : List (List (List InlineTok)))
  deriving Repr

/-- Modelled from the spec: a fence line — a (trimmed) line consisting
of three backticks optionally followed by a language tag (§4.1 (1));
the same shape also closes an open fence. -/
def isFenceLine (tr : List Char) : Bool :=
  listStartsWith [btick, btick, btick] tr

/-- Modelled from the spec: the language tag of a fence line (text
after the three backticks, trimmed; empty when absent). -/
def fenceLang (tr : List Char) : List Char :=
  trimL (tr.drop 3)

/-- Modelled from the spec: parse one list-item line (§4.2) — leading
whitespace gives the indent width; then an unordered marker
(`-`/`*`/`+`) or an ordered marker (digits and a dot) per the `ordered`
flag, followed by whitespace; a task box `[ ]`/`[x]`/`[X]` is
recognised before the generic item text and sets `checked`.  Returns
(indent, checked, item text). -/
def parseItemLine (ordered : Bool) (l : List Char) : Option (Nat × Option Bool × List Char) :=
  let ind := (l.takeWhile isSpaceChar).length
  let rest := l.dropWhile isSpaceChar
  let afterMarker : Option (List Char) :=
    if ordered then
      let ds := rest.takeWhile isDigitChar
      if ds.isEmpty then none
      else
        match rest.drop ds.length with
        | '.' :: rest2 =>
          match rest2 with
          | c :: _ => if isSpaceChar c then some (rest2.dropWhile isSpaceChar) else none
          | [] => none
        | _ => none
    else
      match rest with
      | c :: rest2 =>
        if c == '-' || c == '*' || c == '+' then
          match rest2 with
          | d :: _ => if isSpaceChar d then some (rest2.dropWhile isSpaceChar) else none
          | [] => none
        else none
      | [] => none
  match afterMarker with
  | none => none
  | some txt =>
    match txt with
    | '[' :: ' ' :: ']' :: rest3 => some (ind, some false, rest3.dropWhile isSpaceChar)
    | '[' :: 'x' :: ']' :: rest3 => some (ind, some true, rest3.dropWhile isSpaceChar)
    | '[' :: 'X' :: ']' :: rest3 => some (ind, some true, rest3.dropWhile isSpaceChar)
    | _ => some (ind, none, txt)

/-- Append a finished child to a parent item's child list. -/
def addChild (p : SListItem) (c : SListItem) : SListItem :=
  match p with
  | .mk content checked items => .mk content checked (items ++ [c])

/-- Modelled from the spec: pop every stack frame whose indent is `≥
cur`, attaching each popped item to the frame below it (or to the
top-level list when the stack empties); the popped prefix collapses by
a left fold, which performs the same attachments as popping one frame
at a time (§4.2). -/
def popAttach (cur : Nat) (stack : List (Nat × SListItem)) (done : List SListItem) :
    List (Nat × SListItem) × List SListItem :=
  let pref := stack.takeWhile (fun fr => cur ≤ fr.1)
  let rest := stack.dropWhile (fun fr => cur ≤ fr.1)
  match pref with
  | [] => (stack, done)
  | f1 :: frest =>
    let x := frest.foldl (fun acc fr => addChild fr.2 acc) f1.2
    match rest with
    | [] => ([], done ++ [x])
    | (j, parent) :: rest2 => ((j, addChild parent x) :: rest2, done)

/-- Collapse the remaining stack at the end of a list run. -/
def finalizeStack (stack : List (Nat × SListItem)) (done : List SListItem) : List SListItem :=
  match stack with
  | [] => done
  | f1 :: frest => done ++ [frest.foldl (fun acc fr => addChild fr.2 acc) f1.2]

/-- Modelled from the spec: the list builder (§4.2) — consume item
lines, maintaining the indent stack; stop at the first blank line or
first line not matching the item pattern.  Returns the item forest and
the unconsumed lines. -/
def buildList (ordered : Bool) : List (List Char) → List (Nat × SListItem) → List SListItem →
    List SListItem × List (List Char)
  | [], stack, done => (finalizeStack stack done, [])
  | l :: rest, stack, done =>
    match parseItemLine ordered l with
    | none => (finalizeStack stack done, l :: rest)
    | some (ind, chk, txt) =>
      let sd := popAttach ind stack done
      buildList ordered rest ((ind, .mk (specInline txt) chk []) :: sd.1) sd.2

/-- Does the (trimmed) line contain a pipe character? -/
def containsPipe (tr : List Char) : Bool :=
  tr.any (fun c => c == '|')

/-- Split a line on `|`. -/
def splitPipes : List Char → List (List Char)
  | [] => [[]]
  | c :: rest =>
    match splitPipes rest with
    | [] => [[c]]
    | h :: t => if c = '|' then [] :: h :: t else (c :: h) :: t

/-- Modelled from the spec: the cells of a table line — split on `|`,
trim each cell, drop the empty leading/trailing cells produced by
leading/trailing pipes (§4.4). -/
def tableCells (tr : List Char) : List (List Char) :=
  ((((splitPipes tr).map trimL).dropWhile List.isEmpty).reverse.dropWhile List.isEmpty).reverse

/-- Modelled from the spec: one separator cell `:?-+:?` (optional
colons around a nonempty dash run). -/
def isDashColonCell (c : List Char) : Bool :=
  let c1 := match c with | ':' :: rest => rest | _ => c
  let c2 := match c1.reverse with | ':' :: rest => rest.reverse | _ => c1
  !c2.isEmpty && c2.all (fun d => d == '-')

/-- Modelled from the spec: the separator line under a table header —
contains `|` and every cell is a dash/colon cell, at least one cell
(§4.4). -/
def isSepLine (tr : List Char) : Bool :=
  containsPipe tr && !(tableCells tr).isEmpty && (tableCells tr).all isDashColonCell

/-- Modelled from the spec: a table body line — contains `|` and is not
blank (body consumption stops at the first line without `|` or blank
line, §4.4). -/
def isRowLine (l : List Char) : Bool :=
  containsPipe (trimL l) && !(trimL l).isEmpty

/-- Inline-lex every cell of a body line. -/
def rowOf (l : List Char) : List (List InlineTok) :=
  (tableCells (trimL l)).map specInline

/-- Modelled from the spec: a blockquote-run line — starts with `>` or
is blank (§4.3). -/
def sBqCollect (l : List Char) : Bool :=
  (match l with | '>' :: _ => true | _ => false) || (trimL l).isEmpty

/-- Modelled from the spec: strip one leading `>` and at most one
following space from each non-blank line of a blockquote run (§4.3). -/
def sStripBq (l : List Char) : List Char :=
  match l with
  | '>' :: rest =>
    match rest with
    | c :: rest2 => if isSpaceChar c then rest2 else rest
    | [] => []
  | _ => l

/-- Modelled from the spec: the block segmenter (§4.1) on a split line
array — fixed precedence: blank skip, fenced code block, horizontal
rule, blockquote, list (task/unordered, then ordered), heading, table,
paragraph.  One unit of fuel is consumed per step to keep the
definition structural; the blockquote branch re-enters the segmenter on
the dequoted lines. -/
def specBlocksF : Nat → List (List Char) → Option (List SBlock)
  | 0, _ => none
  | _ + 1, [] => some []
  | f + 1, l :: rest =>
    let tr := trimL l
    if tr.isEmpty = true then specBlocksF f rest
    else if isFenceLine tr = true then
      let body := rest.takeWhile (fun x => !(isFenceLine (trimL x)))
      let remaining := (rest.dropWhile (fun x => !(isFenceLine (trimL x)))).drop 1
      (specBlocksF f remaining).map (fun ts => .codeBlock (fenceLang tr) (joinLines body) :: ts)
    else if isHrLine tr = true then
      (specBlocksF f rest).map (fun ts => .horizontalRule :: ts)
    else if sBqCollect l = true ∧ ¬ (trimL l).isEmpty = true then
      let collected := (l :: rest).takeWhile sBqCollect
      let remaining := (l :: rest).dropWhile sBqCollect
      match specBlocksF f (collected.map sStripBq) with
      | none => none
      | some content =>
        (specBlocksF f remaining).map (fun ts => .blockquote content :: ts)
    else if (parseItemLine false l).isSome = true then
      let built := buildList false (l :: rest) [] []
      (specBlocksF f built.2).map (fun ts => .list false built.1 :: ts)
    else if (parseItemLine true l).isSome = true then
      let built := buildList true (l :: rest) [] []
      (specBlocksF f built.2).map (fun ts => .list true built.1 :: ts)
    else
      match parseHeading tr with
      | some (lvl, content) =>
        (specBlocksF f rest).map (fun ts => .heading lvl (specInline content) :: ts)
      | none =>
        if containsPipe tr = true ∧ (match rest with
            | next :: _ => isSepLine (trimL next) || containsPipe (trimL next)
            | [] => false) = true then
          match rest with
          | [] => (specBlocksF f rest).map (fun ts => .paragraph (specInline tr) :: ts)
          | next :: rest2 =>
            if isSepLine (trimL next) = true then
              let body := rest2.takeWhile isRowLine
              let remaining := rest2.dropWhile isRowLine
              (specBlocksF f remaining).map (fun ts =>
                .table ((tableCells tr).map specInline) (body.map rowOf) :: ts)
            else
              let body := (l :: next :: rest2).takeWhile isRowLine
              let remaining := (l :: next :: rest2).dropWhile isRowLine
              (specBlocksF f remaining).map (fun ts =>
                .table [] (body.map rowOf) :: ts)
        else
          (specBlocksF f rest).map (fun ts => .paragraph (specInline tr) :: ts)

/-- Modelled from the spec: `tokenize` of the current tokenizer, with
explicit fuel. -/
def specTokenizeF (fuel : Nat) (s : String) : Option (List SBlock) :=
  specBlocksF fuel (splitLines s.toList)

/-- Modelled from the spec: `tokenize` of the current tokenizer with a
generous default fuel. -/
def specTokenize (s : String) : Option (List SBlock) :=
  specTokenizeF ((s.length + 2) * (s.length + 2)) s

/-! ## Claim theorems -/

/-- C1: the totality claim fails on the code: on the input consisting of
the single line `  > x` (a blockquote marker preceded by spaces),
`tokenizeUserInput` never returns — `consumeBlockquote` collects the
line (its trimmed form starts with `>`) but the marker strip
`line.replace(/^>\s?/, "")` is anchored at the start of the raw line
and removes nothing, so the recursive call receives the very same
input; in the fuel model the result is `none` for every fuel. -/
theorem claim1_blockquote_divergence : ∀ fuel : Nat, tokenizeF fuel "  > x" = none := by
  intro fuel
  induction fuel with
  | zero => rfl
  | succ f ih =>
    have h1 : tokenizeF (f + 1) "  > x" =
        (match tokenizeF f "  > x" with
         | none => none
         | some content => (tokenizeBlocksF f []).map (fun ts => BlockTok.blockquote content :: ts)) := rfl
    rw [h1, ih]

/-- C6: emphasis precedence and nesting in `tokenizeInline` of
`src/tokenizer.js` — `***x***` lexes to a single boldItalic token whose
content is the text `x` (the longer marker wins at the shared start
offset), and `**a *b* c**` lexes to a single bold token whose content
is the sequence text `a `, italic(text `b`), text ` c` (inner spans are
recursively lexed). -/
theorem claim6_emphasis_precedence :
    tokenize "***x***" = some [BlockTok.paragraph [InlineTok.boldItalic [InlineTok.text (str "x")]]] ∧
    tokenize "**a *b* c**" = some [BlockTok.paragraph [InlineTok.bold
      [InlineTok.text (str "a "), InlineTok.italic [InlineTok.text (str "b")],
       InlineTok.text (str " c")]]] :=
  ⟨rfl, rfl⟩

/-- If no marker of the table has a pair in `t`, the styled search
finds nothing. -/
lemma findEarliestStyled_eq_none (t : List Char)
    (h : ∀ p ∈ srcMarkers, markerCandidate t p.1 p.2 = none) :
    findEarliestStyled t = none := by
  have h1 := h (STy.boldItalic, ['*', '*', '*']) (by simp [srcMarkers])
  have h2 := h (STy.boldItalic, ['_', '_', '_']) (by simp [srcMarkers])
  have h3 := h (STy.bold, ['*', '*']) (by simp [srcMarkers])
  have h4 := h (STy.bold, ['_', '_']) (by simp [srcMarkers])
  have h5 := h (STy.italic, ['*']) (by simp [srcMarkers])
  have h6 := h (STy.italic, ['_']) (by simp [srcMarkers])
  have h7 := h (STy.strikethrough, ['~', '~']) (by simp [srcMarkers])
  have h8 := h (STy.strikethrough, ['~']) (by simp [srcMarkers])
  simp only [findEarliestStyled, srcMarkers, List.foldl_cons, List.foldl_nil,
    h1, h2, h3, h4, h5, h6, h7, h8, keepEarlierStyled]

/-- C9: unmatched markers degrade to literal text in
`src/tokenizer.js` — `a * b` (lone `*`, no closing occurrence) becomes
one paragraph holding the single literal text token `a * b`; in
general, when no atomic pattern matches and no styled marker of the
table has a later closing occurrence (no candidate pair), the whole
text is emitted unchanged as one text token, with no error. -/
theorem claim9_unmatched_markers_literal :
    tokenize "a * b" = some [BlockTok.paragraph [InlineTok.text (str "a * b")]] ∧
    ∀ t : List Char, t ≠ [] → findEarliestAtomic t = none →
      (∀ p ∈ srcMarkers, markerCandidate t p.1 p.2 = none) →
      tokenizeInline t = [InlineTok.text t] := by
  refine ⟨rfl, ?_⟩
  intro t ht ha hm
  have hs : findEarliestStyled t = none := findEarliestStyled_eq_none t hm
  have hc : chooseMatch t = none := by
    simp only [chooseMatch, ha, hs]
  have he : t.isEmpty = false := by
    cases t with
    | nil => exact absurd rfl ht
    | cons a b => rfl
  show tokenizeInlineF (t.length + 1) t = [InlineTok.text t]
  simp only [tokenizeInlineF, he, Bool.false_eq_true, if_false, hc]

/-- C9 witness: the general half of the claim applied to the concrete
text `x*y` (a lone `*` with no closing occurrence). -/
theorem claim9_witness :
    (str "x*y" ≠ [] ∧ findEarliestAtomic (str "x*y") = none ∧
      (∀ p ∈ srcMarkers, markerCandidate (str "x*y") p.1 p.2 = none)) ∧
    tokenizeInline (str "x*y") = [InlineTok.text (str "x*y")] :=
  ⟨⟨by decide, rfl, by decide⟩,
   claim9_unmatched_markers_literal.2 (str "x*y") (by decide) rfl (by decide)⟩

/-- Whether a character list starts with a whitespace character. -/
def headSpace : List Char → Bool
  | c :: _ => isSpaceChar c
  | [] => false

/-- A line whose trimmed form starts with `#` fails every dispatch test
before the heading test (blank, horizontal rule, blockquote, ordered
list, unordered list). -/
lemma hash_head_fallthrough (rest0 : List Char) :
    (('#' :: rest0 : List Char).isEmpty = false) ∧ isHrLine ('#' :: rest0) = false ∧
      isBqStart ('#' :: rest0) = false ∧ parseOlistItem ('#' :: rest0) = none ∧
      parseUlistItem ('#' :: rest0) = none :=
  ⟨rfl, rfl, rfl, rfl, rfl⟩

/-- One driver step on a line that fails the blank, rule, blockquote
and list tests: the heading test decides between heading and
paragraph. -/
lemma blocksF_cons_fallthrough (f : Nat) (l : List Char) (rest : List (List Char))
    (h0 : (trimL l).isEmpty = false) (h1 : isHrLine (trimL l) = false)
    (h2 : isBqStart (trimL l) = false) (h3 : parseOlistItem (trimL l) = none)
    (h4 : parseUlistItem (trimL l) = none) :
    tokenizeBlocksF (f + 1) (l :: rest) =
      (match parseHeading (trimL l) with
       | some (lvl, content) =>
         (tokenizeBlocksF f rest).map (fun ts => BlockTok.heading lvl (tokenizeInline content) :: ts)
       | none =>
         (tokenizeBlocksF f rest).map (fun ts => BlockTok.paragraph (tokenizeInline (trimL l)) :: ts)) := by
  simp only [tokenizeBlocksF]
  rw [if_neg (by simp [h0]), if_neg (by simp [h1]), if_neg (by simp [h2]),
    if_neg (by simp [h3]), if_neg (by simp [h4])]

/-- A nonempty `takeWhile` prefix exposes the head of the list. -/
lemma takeWhile_head (p : Char → Bool) (tr : List Char)
    (h : 1 ≤ (tr.takeWhile p).length) : ∃ c rest0, tr = c :: rest0 ∧ p c = true := by
  cases tr with
  | nil => simp [List.takeWhile] at h
  | cons c rest0 =>
    refine ⟨c, rest0, rfl, ?_⟩
    by_contra hpc
    have : p c = false := by
      cases hv : p c with
      | false => rfl
      | true => exact absurd hv hpc
    simp [List.takeWhile, this] at h

/-- C7: heading recognition of `src/tokenizer.js` is bounded at level
six — whenever the trimmed line starts with between 1 and 6 `#`
characters followed by a whitespace character, one driver step emits a
heading token whose level is the number of `#` characters (content: the
rest of the line after the whitespace run); with 7 or more leading `#`
characters the heading regex cannot match and the line falls through to
a paragraph token. -/
theorem claim7_heading_levels :
    ∀ (f : Nat) (l : List Char) (rest : List (List Char)),
      (1 ≤ ((trimL l).takeWhile (fun c => c == '#')).length →
        ((trimL l).takeWhile (fun c => c == '#')).length ≤ 6 →
        headSpace ((trimL l).drop ((trimL l).takeWhile (fun c => c == '#')).length) = true →
        tokenizeBlocksF (f + 1) (l :: rest) =
          (tokenizeBlocksF f rest).map (fun ts =>
            BlockTok.heading ((trimL l).takeWhile (fun c => c == '#')).length
              (tokenizeInline (((trimL l).drop ((trimL l).takeWhile (fun c => c == '#')).length).dropWhile isSpaceChar)) :: ts)) ∧
      (7 ≤ ((trimL l).takeWhile (fun c => c == '#')).length →
        tokenizeBlocksF (f + 1) (l :: rest) =
          (tokenizeBlocksF f rest).map (fun ts => BlockTok.paragraph (tokenizeInline (trimL l)) :: ts)) := by
  intro f l rest
  constructor
  · intro hm1 hm6 hsp
    obtain ⟨c, rest0, htr, hc⟩ := takeWhile_head _ _ hm1
    have hc' : c = '#' := eq_of_beq hc
    subst hc'
    obtain ⟨e0, e1, e2, e3, e4⟩ := hash_head_fallthrough rest0
    rw [blocksF_cons_fallthrough f l rest (htr ▸ e0) (htr ▸ e1) (htr ▸ e2) (htr ▸ e3) (htr ▸ e4)]
    have hparse : parseHeading (trimL l) =
        some (((trimL l).takeWhile (fun c => c == '#')).length,
          ((trimL l).drop ((trimL l).takeWhile (fun c => c == '#')).length).dropWhile isSpaceChar) := by
      simp only [parseHeading]
      rw [if_pos ⟨hm1, hm6⟩]
      cases hdrop : (trimL l).drop ((trimL l).takeWhile (fun c => c == '#')).length with
      | nil => rw [hdrop] at hsp; simp [headSpace] at hsp
      | cons d rest2 =>
        rw [hdrop] at hsp
        have hd : isSpaceChar d = true := hsp
        simp [hd]
    rw [hparse]
  · intro hm7
    obtain ⟨c, rest0, htr, hc⟩ := takeWhile_head _ _ (le_trans (by omega) hm7)
    have hc' : c = '#' := eq_of_beq hc
    subst hc'
    obtain ⟨e0, e1, e2, e3, e4⟩ := hash_head_fallthrough rest0
    rw [blocksF_cons_fallthrough f l rest (htr ▸ e0) (htr ▸ e1) (htr ▸ e2) (htr ▸ e3) (htr ▸ e4)]
    have hparse : parseHeading (trimL l) = none := by
      simp only [parseHeading]
      rw [if_neg (by omega)]
    rw [hparse]

/-- C7 witness: the theorem applied to the lines `# H1` (heading level
1) and `####### too many` (paragraph). -/
theorem claim7_witness :
    tokenizeBlocksF 1 [str "# H1"] =
      (tokenizeBlocksF 0 []).map (fun ts =>
        BlockTok.heading 1 (tokenizeInline (str "H1")) :: ts) ∧
    tokenizeBlocksF 1 [str "####### too many"] =
      (tokenizeBlocksF 0 []).map (fun ts =>
        BlockTok.paragraph (tokenizeInline (str "####### too many")) :: ts) :=
  ⟨(claim7_heading_levels 0 (str "# H1") []).1 (by decide) (by decide) (by decide),
   (claim7_heading_levels 0 (str "####### too many") []).2 (by decide)⟩

/-! ## Ordered-list digit irrelevance (claim C10) -/

/-- Two lines that are equal, or that both match the ordered-item test
on their trimmed forms and agree on everything after the digit run
(the dot, the whitespace and the item text). -/
def olistDigitsEquiv (l1 l2 : List Char) : Bool :=
  l1 == l2 ||
    ((parseOlistItem (trimL l1)).isSome && (parseOlistItem (trimL l2)).isSome &&
      ((trimL l1).drop ((trimL l1).takeWhile isDigitChar).length ==
        (trimL l2).drop ((trimL l2).takeWhile isDigitChar).length))

/-- Pointwise lifting of a line relation to line lists of equal
length. -/
def listRelAll (r : List Char → List Char → Bool) : List (List Char) → List (List Char) → Bool
  | [], [] => true
  | x :: xs, y :: ys => r x y && listRelAll r xs ys
  | _, _ => false

/-- The ordered-item parse only looks at the text after the digit run,
so two lines with matching tails parse alike. -/
lemma parse_eq_of_tail_eq (tr1 tr2 : List Char)
    (h1 : (parseOlistItem tr1).isSome = true) (h2 : (parseOlistItem tr2).isSome = true)
    (ht : tr1.drop (tr1.takeWhile isDigitChar).length = tr2.drop (tr2.takeWhile isDigitChar).length) :
    parseOlistItem tr1 = parseOlistItem tr2 := by
  have e1 : (tr1.takeWhile isDigitChar).isEmpty = false := by
    cases hv : (tr1.takeWhile isDigitChar).isEmpty
    · rfl
    · simp [parseOlistItem, hv] at h1
  have e2 : (tr2.takeWhile isDigitChar).isEmpty = false := by
    cases hv : (tr2.takeWhile isDigitChar).isEmpty
    · rfl
    · simp [parseOlistItem, hv] at h2
  simp only [parseOlistItem]
  rw [if_neg (by simp [e1]), if_neg (by simp [e2]), ht]

/-- A line passing the ordered-item test starts (after trimming) with a
digit. -/
lemma parse_digit_head (tr : List Char) (h : (parseOlistItem tr).isSome = true) :
    ∃ c rest0, tr = c :: rest0 ∧ isDigitChar c = true := by
  have hne : (tr.takeWhile isDigitChar).isEmpty = false := by
    cases hv : (tr.takeWhile isDigitChar).isEmpty
    · rfl
    · simp [parseOlistItem, hv] at h
  have hlen : 1 ≤ (tr.takeWhile isDigitChar).length := by
    cases hts : tr.takeWhile isDigitChar with
    | nil => rw [hts] at hne; simp at hne
    | cons c cs => simp [hts]
  exact takeWhile_head _ _ hlen

/-- A digit is none of the marker characters tested by the earlier
dispatch branches. -/
lemma digit_no_marker (c : Char) (hc : isDigitChar c = true) :
    (c == '*') = false ∧ (c == '-') = false ∧ (c == '_') = false ∧ (c == '>') = false := by
  refine ⟨?_, ?_, ?_, ?_⟩
  · cases hv : c == '*' with
    | false => rfl
    | true => have hceq := eq_of_beq hv; subst hceq; exact absurd hc (by decide)
  · cases hv : c == '-' with
    | false => rfl
    | true => have hceq := eq_of_beq hv; subst hceq; exact absurd hc (by decide)
  · cases hv : c == '_' with
    | false => rfl
    | true => have hceq := eq_of_beq hv; subst hceq; exact absurd hc (by decide)
  · cases hv : c == '>' with
    | false => rfl
    | true => have hceq := eq_of_beq hv; subst hceq; exact absurd hc (by decide)

/-- Dispatch facts about a line passing the ordered-item test. -/
lemma olist_head_facts (tr : List Char) (h : (parseOlistItem tr).isSome = true) :
    tr.isEmpty = false ∧ isHrLine tr = false ∧ isBqStart tr = false ∧
      parseUlistItem tr = none := by
  obtain ⟨c, rest0, rfl, hc⟩ := parse_digit_head tr h
  obtain ⟨m1, m2, m3, m4⟩ := digit_no_marker c hc
  refine ⟨rfl, ?_, ?_, ?_⟩
  · simp [isHrLine, m1, m2, m3]
  · simp [isBqStart, m4]
  · simp [parseUlistItem, m1, m2]

/-- Everything the driver inspects is equal across an
`olistDigitsEquiv` pair, and a pair that is not an ordered-item pair is
an equal pair. -/
lemma equiv_facts (l1 l2 : List Char) (hR : olistDigitsEquiv l1 l2 = true) :
    (trimL l1).isEmpty = (trimL l2).isEmpty ∧
      isHrLine (trimL l1) = isHrLine (trimL l2) ∧
      isBqStart (trimL l1) = isBqStart (trimL l2) ∧
      parseOlistItem (trimL l1) = parseOlistItem (trimL l2) ∧
      parseUlistItem (trimL l1) = parseUlistItem (trimL l2) ∧
      bqCollect l1 = bqCollect l2 ∧
      ((parseOlistItem (trimL l1)).isSome = false → l1 = l2) := by
  rw [olistDigitsEquiv, Bool.or_eq_true] at hR
  rcases hR with heq | hvar
  · have : l1 = l2 := eq_of_beq heq
    subst this
    exact ⟨rfl, rfl, rfl, rfl, rfl, rfl, fun _ => rfl⟩
  · rw [Bool.and_eq_true, Bool.and_eq_true] at hvar
    obtain ⟨⟨hs1, hs2⟩, htl⟩ := hvar
    have ht := eq_of_beq htl
    have hpe : parseOlistItem (trimL l1) = parseOlistItem (trimL l2) :=
      parse_eq_of_tail_eq _ _ hs1 hs2 ht
    obtain ⟨a1, b1, c1, d1⟩ := olist_head_facts _ hs1
    obtain ⟨a2, b2, c2, d2⟩ := olist_head_facts _ hs2
    refine ⟨by rw [a1, a2], by rw [b1, b2], by rw [c1, c2], hpe, by rw [d1, d2], ?_, ?_⟩
    · simp [bqCollect, a1, a2, c1, c2]
    · intro hfalse
      rw [hs1] at hfalse
      cases hfalse

/-- Span preservation when the predicate respects the relation and
holds only on equal pairs: equal collected prefixes and related
remainders. -/
lemma rel_span_eq (r : List Char → List Char → Bool) (p : List Char → Bool)
    (hp : ∀ a b, r a b = true → p a = p b)
    (hq : ∀ a b, r a b = true → p a = true → a = b) :
    ∀ xs ys, listRelAll r xs ys = true →
      xs.takeWhile p = ys.takeWhile p ∧
        listRelAll r (xs.dropWhile p) (ys.dropWhile p) = true := by
  intro xs
  induction xs with
  | nil =>
    intro ys h
    cases ys with
    | nil => exact ⟨rfl, rfl⟩
    | cons b bs => simp [listRelAll] at h
  | cons a xs ih =>
    intro ys h
    cases ys with
    | nil => simp [listRelAll] at h
    | cons b bs =>
      rw [listRelAll, Bool.and_eq_true] at h
      obtain ⟨hab, hxs⟩ := h
      have hpeq := hp a b hab
      cases hpa : p a with
      | true =>
        have heq : a = b := hq a b hab hpa
        subst heq
        obtain ⟨h1, h2⟩ := ih bs hxs
        constructor
        · rw [List.takeWhile_cons, List.takeWhile_cons, if_pos hpa, if_pos hpa, h1]
        · rw [List.dropWhile_cons, List.dropWhile_cons, if_pos hpa, if_pos hpa]
          exact h2
      | false =>
        have hpb : p b = false := by rw [← hpeq, hpa]
        have hna : ¬p a = true := by simp [hpa]
        have hnb : ¬p b = true := by simp [hpb]
        constructor
        · rw [List.takeWhile_cons, List.takeWhile_cons, if_neg hna, if_neg hnb]
        · rw [List.dropWhile_cons, List.dropWhile_cons, if_neg hna, if_neg hnb]
          rw [listRelAll, Bool.and_eq_true]
          exact ⟨hab, hxs⟩

/-- Span preservation when the predicate merely respects the relation:
related collected prefixes and related remainders. -/
lemma rel_span_rel (r : List Char → List Char → Bool) (p : List Char → Bool)
    (hp : ∀ a b, r a b = true → p a = p b) :
    ∀ xs ys, listRelAll r xs ys = true →
      listRelAll r (xs.takeWhile p) (ys.takeWhile p) = true ∧
        listRelAll r (xs.dropWhile p) (ys.dropWhile p) = true := by
  intro xs
  induction xs with
  | nil =>
    intro ys h
    cases ys with
    | nil => exact ⟨rfl, rfl⟩
    | cons b bs => simp [listRelAll] at h
  | cons a xs ih =>
    intro ys h
    cases ys with
    | nil => simp [listRelAll] at h
    | cons b bs =>
      rw [listRelAll, Bool.and_eq_true] at h
      obtain ⟨hab, hxs⟩ := h
      have hpeq := hp a b hab
      cases hpa : p a with
      | true =>
        have hpb : p b = true := by rw [← hpeq, hpa]
        obtain ⟨h1, h2⟩ := ih bs hxs
        constructor
        · rw [List.takeWhile_cons, List.takeWhile_cons, if_pos hpa, if_pos hpb]
          rw [listRelAll, Bool.and_eq_true]
          exact ⟨hab, h1⟩
        · rw [List.dropWhile_cons, List.dropWhile_cons, if_pos hpa, if_pos hpb]
          exact h2
      | false =>
        have hpb : p b = false := by rw [← hpeq, hpa]
        have hna : ¬p a = true := by simp [hpa]
        have hnb : ¬p b = true := by simp [hpb]
        constructor
        · rw [List.takeWhile_cons, List.takeWhile_cons, if_neg hna, if_neg hnb]
          rfl
        · rw [List.dropWhile_cons, List.dropWhile_cons, if_neg hna, if_neg hnb]
          rw [listRelAll, Bool.and_eq_true]
          exact ⟨hab, hxs⟩

/-- Mapping a relation-respecting function over related lists gives
equal lists. -/
lemma rel_map_eq {β : Type} (r : List Char → List Char → Bool) (g : List Char → β)
    (hg : ∀ a b, r a b = true → g a = g b) :
    ∀ xs ys, listRelAll r xs ys = true → xs.map g = ys.map g := by
  intro xs
  induction xs with
  | nil =>
    intro ys h
    cases ys with
    | nil => rfl
    | cons b bs => simp [listRelAll] at h
  | cons a xs ih =>
    intro ys h
    cases ys with
    | nil => simp [listRelAll] at h
    | cons b bs =>
      rw [listRelAll, Bool.and_eq_true] at h
      obtain ⟨hab, hxs⟩ := h
      simp only [List.map_cons]
      rw [hg a b hab, ih bs hxs]

/-- C10: ordered-list numbering is discarded by `src/tokenizer.js` —
for any two inputs whose line lists are pointwise equal except that
ordered-item lines may differ in the digit sequence of their markers,
`tokenizeUserInput` returns identical token arrays at every fuel: the
olist token records only each item's inline-lexed text in line order,
never the source numbers. -/
theorem claim10_olist_digits_ignored :
    (∀ (fuel : Nat) (ls1 ls2 : List (List Char)),
      listRelAll olistDigitsEquiv ls1 ls2 = true →
      tokenizeBlocksF fuel ls1 = tokenizeBlocksF fuel ls2) ∧
    (∀ (fuel : Nat) (s1 s2 : String),
      listRelAll olistDigitsEquiv (splitLines s1.toList) (splitLines s2.toList) = true →
      tokenizeF fuel s1 = tokenizeF fuel s2) := by
  have main : ∀ (fuel : Nat) (ls1 ls2 : List (List Char)),
      listRelAll olistDigitsEquiv ls1 ls2 = true →
      tokenizeBlocksF fuel ls1 = tokenizeBlocksF fuel ls2 := by
    intro fuel
    induction fuel with
    | zero => intro ls1 ls2 h; rfl
    | succ f ih =>
      intro ls1 ls2 h
      cases ls1 with
      | nil =>
        cases ls2 with
        | nil => rfl
        | cons b bs => simp [listRelAll] at h
      | cons l1 rest1 =>
        cases ls2 with
        | nil => simp [listRelAll] at h
        | cons l2 rest2 =>
          rw [listRelAll, Bool.and_eq_true] at h
          obtain ⟨hR, hrest⟩ := h
          obtain ⟨Ee, Eh, Eb, Eo, Eu, Ebc, Eeq⟩ := equiv_facts l1 l2 hR
          simp only [tokenizeBlocksF]
          by_cases c1 : (trimL l1).isEmpty = true
          · have d1 : (trimL l2).isEmpty = true := by rw [← Ee]; exact c1
            rw [if_pos c1, if_pos d1]
            exact ih rest1 rest2 hrest
          · have d1 : ¬(trimL l2).isEmpty = true := by rw [← Ee]; exact c1
            rw [if_neg c1, if_neg d1]
            by_cases c2 : isHrLine (trimL l1) = true
            · have d2 : isHrLine (trimL l2) = true := by rw [← Eh]; exact c2
              rw [if_pos c2, if_pos d2]
              rw [ih rest1 rest2 hrest]
            · have d2 : ¬isHrLine (trimL l2) = true := by rw [← Eh]; exact c2
              rw [if_neg c2, if_neg d2]
              by_cases c3 : isBqStart (trimL l1) = true
              · have d3 : isBqStart (trimL l2) = true := by rw [← Eb]; exact c3
                rw [if_pos c3, if_pos d3]
                have hbceq : ∀ a b, olistDigitsEquiv a b = true → bqCollect a = bqCollect b :=
                  fun a b hr => (equiv_facts a b hr).2.2.2.2.2.1
                have hbcid : ∀ a b, olistDigitsEquiv a b = true → bqCollect a = true → a = b := by
                  intro a b hr hba
                  by_cases hps : (parseOlistItem (trimL a)).isSome = true
                  · exfalso
                    obtain ⟨c, r0, hc1, hc2⟩ := parse_digit_head _ hps
                    obtain ⟨_, _, _, m4⟩ := digit_no_marker c hc2
                    rw [bqCollect, hc1] at hba
                    simp [isBqStart, m4] at hba
                  · exact (equiv_facts a b hr).2.2.2.2.2.2 (by simpa using hps)
                obtain ⟨hcoll, hremr⟩ :=
                  rel_span_eq olistDigitsEquiv bqCollect hbceq hbcid (l1 :: rest1) (l2 :: rest2)
                    (by rw [listRelAll, Bool.and_eq_true]; exact ⟨hR, hrest⟩)
                rw [hcoll, ih _ _ hremr]
              · have d3 : ¬isBqStart (trimL l2) = true := by rw [← Eb]; exact c3
                rw [if_neg c3, if_neg d3]
                by_cases c4 : (parseOlistItem (trimL l1)).isSome = true
                · have d4 : (parseOlistItem (trimL l2)).isSome = true := by rw [← Eo]; exact c4
                  rw [if_pos c4, if_pos d4]
                  have hpeq : ∀ a b, olistDigitsEquiv a b = true →
                      ((parseOlistItem (trimL a)).isSome : Bool) = (parseOlistItem (trimL b)).isSome :=
                    fun a b hr => by rw [(equiv_facts a b hr).2.2.2.1]
                  obtain ⟨htk, hdp⟩ :=
                    rel_span_rel olistDigitsEquiv (fun x => (parseOlistItem (trimL x)).isSome) hpeq
                      (l1 :: rest1) (l2 :: rest2)
                      (by rw [listRelAll, Bool.and_eq_true]; exact ⟨hR, hrest⟩)
                  have hmap := rel_map_eq olistDigitsEquiv
                    (fun x => tokenizeInline ((parseOlistItem (trimL x)).getD []))
                    (fun a b hr => by
                      show tokenizeInline ((parseOlistItem (trimL a)).getD []) =
                        tokenizeInline ((parseOlistItem (trimL b)).getD [])
                      rw [(equiv_facts a b hr).2.2.2.1]) _ _ htk
                  rw [hmap, ih _ _ hdp]
                · have d4 : ¬(parseOlistItem (trimL l2)).isSome = true := by rw [← Eo]; exact c4
                  rw [if_neg c4, if_neg d4]
                  by_cases c5 : (parseUlistItem (trimL l1)).isSome = true
                  · have d5 : (parseUlistItem (trimL l2)).isSome = true := by rw [← Eu]; exact c5
                    rw [if_pos c5, if_pos d5]
                    have hpeq : ∀ a b, olistDigitsEquiv a b = true →
                        ((parseUlistItem (trimL a)).isSome : Bool) = (parseUlistItem (trimL b)).isSome :=
                      fun a b hr => by rw [(equiv_facts a b hr).2.2.2.2.1]
                    obtain ⟨htk, hdp⟩ :=
                      rel_span_rel olistDigitsEquiv (fun x => (parseUlistItem (trimL x)).isSome) hpeq
                        (l1 :: rest1) (l2 :: rest2)
                        (by rw [listRelAll, Bool.and_eq_true]; exact ⟨hR, hrest⟩)
                    have hmap := rel_map_eq olistDigitsEquiv
                      (fun x => tokenizeInline ((parseUlistItem (trimL x)).getD []))
                      (fun a b hr => by
                        show tokenizeInline ((parseUlistItem (trimL a)).getD []) =
                          tokenizeInline ((parseUlistItem (trimL b)).getD [])
                        rw [(equiv_facts a b hr).2.2.2.2.1]) _ _ htk
                    rw [hmap, ih _ _ hdp]
                  · have d5 : ¬(parseUlistItem (trimL l2)).isSome = true := by rw [← Eu]; exact c5
                    rw [if_neg c5, if_neg d5]
                    have hl : l1 = l2 := Eeq (by simpa using c4)
                    subst hl
                    rw [ih rest1 rest2 hrest]
  exact ⟨main, fun fuel s1 s2 h => main fuel _ _ h⟩

/-- C10 witness: the theorem applied to the inputs `1. a` and `55. a`,
which differ only in the digit sequence of the ordered-list marker. -/
theorem claim10_witness :
    listRelAll olistDigitsEquiv (splitLines (str "1. a")) (splitLines (str "55. a")) = true ∧
    tokenizeF 5 "1. a" = tokenizeF 5 "55. a" :=
  ⟨by decide, claim10_olist_digits_ignored.2 5 "1. a" "55. a" (by decide)⟩

/-- `takeWhile` keeps a list on which the predicate always holds. -/
lemma takeWhile_all {α : Type} (p : α → Bool) :
    ∀ l : List α, (∀ x ∈ l, p x = true) → l.takeWhile p = l := by
  intro l
  induction l with
  | nil => intro _; rfl
  | cons a l ih =>
    intro h
    rw [List.takeWhile_cons, if_pos (h a (List.mem_cons_self a l)),
      ih (fun x hx => h x (List.mem_cons_of_mem a hx))]

/-- `dropWhile` erases a list on which the predicate always holds. -/
lemma dropWhile_all {α : Type} (p : α → Bool) :
    ∀ l : List α, (∀ x ∈ l, p x = true) → l.dropWhile p = [] := by
  intro l
  induction l with
  | nil => intro _; rfl
  | cons a l ih =>
    intro h
    rw [List.dropWhile_cons, if_pos (h a (List.mem_cons_self a l)),
      ih (fun x hx => h x (List.mem_cons_of_mem a hx))]

/-- A fence line is nonempty. -/
lemma fence_nonempty (tr : List Char) (h : isFenceLine tr = true) : tr.isEmpty = false := by
  cases tr with
  | nil => exact absurd h (by decide)
  | cons c rest0 => rfl

/-- C2: the spec-modelled fence branch — whenever the segmenter reaches
a line whose trimmed form opens a fence, it emits exactly one codeBlock
token holding the language tag and, verbatim (joined with newlines, not
inline-parsed), every following line up to the first closing fence, and
resumes after that fence; when no closing fence exists, every remaining
line is consumed into the codeBlock content and the result is still
`some` (no error). -/
theorem claim2_code_fence (f : Nat) (l : List Char) (rest : List (List Char))
    (hf : isFenceLine (trimL l) = true) :
    specBlocksF (f + 1) (l :: rest) =
      (specBlocksF f ((rest.dropWhile (fun x => !(isFenceLine (trimL x)))).drop 1)).map
        (fun ts => SBlock.codeBlock (fenceLang (trimL l))
          (joinLines (rest.takeWhile (fun x => !(isFenceLine (trimL x))))) :: ts) ∧
    ((∀ x ∈ rest, isFenceLine (trimL x) = false) →
      specBlocksF (f + 1 + 1) (l :: rest) =
        some [SBlock.codeBlock (fenceLang (trimL l)) (joinLines rest)]) := by
  have step : ∀ g : Nat, specBlocksF (g + 1) (l :: rest) =
      (specBlocksF g ((rest.dropWhile (fun x => !(isFenceLine (trimL x)))).drop 1)).map
        (fun ts => SBlock.codeBlock (fenceLang (trimL l))
          (joinLines (rest.takeWhile (fun x => !(isFenceLine (trimL x))))) :: ts) := by
    intro g
    have hne : (trimL l).isEmpty = false := fence_nonempty _ hf
    simp only [specBlocksF]
    rw [if_neg (by simp [hne]), if_pos hf]
  refine ⟨step f, ?_⟩
  intro hall
  have hp : ∀ x ∈ rest, (fun x => !(isFenceLine (trimL x))) x = true := by
    intro x hx
    simp [hall x hx]
  have h1 : rest.takeWhile (fun x => !(isFenceLine (trimL x))) = rest := takeWhile_all _ rest hp
  have h2 : rest.dropWhile (fun x => !(isFenceLine (trimL x))) = [] := dropWhile_all _ rest hp
  rw [step (f + 1), h1, h2]
  rfl

/-- C2 witness: the theorem applied to the unterminated input whose
lines are `` ```js `` and `code`. -/
theorem claim2_witness :
    isFenceLine (trimL (str "```js")) = true ∧
    specBlocksF 2 [str "```js", str "code"] =
      some [SBlock.codeBlock (fenceLang (trimL (str "```js"))) (joinLines [str "code"])] :=
  ⟨by decide,
   (claim2_code_fence 0 (str "```js") [str "code"] (by decide)).2 (by decide)⟩

/-! ## Escape-sentinel lemmas (claim C3) -/

/-- Escape every character of a text with a backslash. -/
def escapeAll : List Char → List Char
  | [] => []
  | c :: rest => '\\' :: c :: escapeAll rest

/-- Expanding all-sentinel text restores the recorded characters in
original order. -/
lemma expandE_map_esc : ∀ cs : List Char, expandE (cs.map EChar.esc) = cs := by
  intro cs
  induction cs with
  | nil => rfl
  | cons c rest ih => simp [expandE] at ih ⊢; exact ih

/-- Preprocessing a fully escaped text yields one sentinel per
character. -/
lemma preprocessEsc_escapeAll : ∀ cs : List Char, preprocessEsc (escapeAll cs) = cs.map EChar.esc := by
  intro cs
  induction cs with
  | nil => rfl
  | cons c rest ih =>
    show preprocessEsc ('\\' :: c :: escapeAll rest) = EChar.esc c :: rest.map EChar.esc
    rw [preprocessEsc, if_pos rfl, ih]

/-- No marker starts inside all-sentinel text. -/
lemma eIndexOfAux_esc (p : Char) (ps : List Char) :
    ∀ (cs : List Char) (i : Nat), eIndexOfAux (p :: ps) (cs.map EChar.esc) i = none := by
  intro cs
  induction cs with
  | nil => intro i; rfl
  | cons a tl ih =>
    intro i
    show eIndexOfAux (p :: ps) (EChar.esc a :: tl.map EChar.esc) i = none
    rw [eIndexOfAux]
    rw [if_neg (by simp [eStartsWith, eIsChar])]
    exact ih (i + 1)

/-- No styled-marker candidate exists in all-sentinel text. -/
lemma eMarkerCandidate_esc (cs : List Char) (ty : SpecTy) (p : Char) (ps : List Char) :
    eMarkerCandidate (cs.map EChar.esc) ty (p :: ps) = none := by
  rw [eMarkerCandidate, eIndexOfFrom, List.drop_zero, eIndexOfAux_esc]

/-- The styled search finds nothing in all-sentinel text. -/
lemma eFindStyled_esc (cs : List Char) : eFindStyled (cs.map EChar.esc) = none := by
  simp only [eFindStyled, specMarkers, List.foldl_cons, List.foldl_nil,
    eMarkerCandidate_esc, eKeepEarlierStyled]

/-- The image pattern cannot match all-sentinel text. -/
lemma eMatchImage_esc (cs : List Char) : eMatchImage (cs.map EChar.esc) = none := by
  cases cs with
  | nil => rfl
  | cons a tl =>
    cases tl with
    | nil => rfl
    | cons b tl2 => rfl

/-- The link pattern cannot match all-sentinel text. -/
lemma eMatchLink_esc (cs : List Char) : eMatchLink (cs.map EChar.esc) = none := by
  cases cs with
  | nil => rfl
  | cons a tl => rfl

/-- The inline-code pattern cannot match all-sentinel text. -/
lemma eMatchCode_esc (cs : List Char) : eMatchCode (cs.map EChar.esc) = none := by
  cases cs with
  | nil => rfl
  | cons a tl => rfl

/-- A leftmost-match scan over all-sentinel text with a matcher that
rejects all-sentinel suffixes finds nothing. -/
lemma eFirstMatchAux_esc (g : List EChar → Option EAtom)
    (hg : ∀ ds : List Char, g (ds.map EChar.esc) = none) :
    ∀ (cs : List Char) (i : Nat), eFirstMatchAux g (cs.map EChar.esc) i = none := by
  intro cs
  induction cs with
  | nil =>
    intro i
    have h0 : g ([] : List EChar) = none := by simpa using hg []
    show (if (g ([] : List EChar)).isSome = true then
        Option.map (fun x => (i, x)) (g ([] : List EChar)) else none) = none
    rw [h0]
    rfl
  | cons a tl ih =>
    intro i
    have h0 : g (EChar.esc a :: tl.map EChar.esc) = none := by simpa using hg (a :: tl)
    show (if (g (EChar.esc a :: tl.map EChar.esc)).isSome = true then
        Option.map (fun x => (i, x)) (g (EChar.esc a :: tl.map EChar.esc))
      else eFirstMatchAux g (tl.map EChar.esc) (i + 1)) = none
    rw [h0]
    simpa using ih (i + 1)

/-- The atomic search finds nothing in all-sentinel text. -/
lemma eFindAtomic_esc (cs : List Char) : eFindAtomic (cs.map EChar.esc) = none := by
  rw [eFindAtomic,
    eFirstMatchAux_esc eMatchImage eMatchImage_esc cs 0,
    eFirstMatchAux_esc eMatchLink eMatchLink_esc cs 0,
    eFirstMatchAux_esc eMatchCode eMatchCode_esc cs 0]
  rfl

/-- One step of the spec inline lexer on nonempty text with no match
emits the expanded text as a single text token. -/
lemma specInlineF_none_step (f : Nat) (t : List EChar)
    (hne : t.isEmpty = false) (hc : eChoose t = none) :
    specInlineF (f + 1) t = [InlineTok.text (expandE t)] := by
  rw [specInlineF]
  rw [if_neg (by simp [hne]), hc]

/-- C3: backslash escapes disable markup in the spec-modelled inline
lexer — `tokenize("\*not italic\*")` yields one paragraph whose inline
content is the single text token `*not italic*` (no italic token); and
in general a fully escaped text produces a single text token restoring
every escaped character literally, in original order: escaped
characters are invisible to all marker and pattern matching. -/
theorem claim3_escape_roundtrip :
    specTokenize "\\*not italic\\*" =
      some [SBlock.paragraph [InlineTok.text (str "*not italic*")]] ∧
    ∀ cs : List Char, cs ≠ [] → specInline (escapeAll cs) = [InlineTok.text cs] := by
  refine ⟨rfl, ?_⟩
  intro cs hcs
  rw [specInline, preprocessEsc_escapeAll]
  have hne : (cs.map EChar.esc).isEmpty = false := by
    cases cs with
    | nil => exact absurd rfl hcs
    | cons a tl => rfl
  have hc : eChoose (cs.map EChar.esc) = none := by
    rw [eChoose, eFindAtomic_esc, eFindStyled_esc]
  rw [specInlineF_none_step _ _ hne hc, expandE_map_esc]

/-- C3 witness: the general half of the claim applied to the concrete
text `*x*` (so the input is `\*\x\*`). -/
theorem claim3_witness :
    str "*x*" ≠ [] ∧ specInline (escapeAll (str "*x*")) = [InlineTok.text (str "*x*")] :=
  ⟨by decide, claim3_escape_roundtrip.2 (str "*x*") (by decide)⟩

/-- C4: indentation builds nested list trees in the spec-modelled list
builder — `tokenize("- a\n  - b\n  - c\n- d")` yields exactly one
unordered list token with two top-level items whose first item `a`
carries `b` and `c` as nested children; and in general, for any two
consecutive item lines, an item line indented strictly more than the
preceding item becomes that item's child (the indent-stack rule). -/
theorem claim4_list_nesting :
    specTokenize "- a\n  - b\n  - c\n- d" =
      some [SBlock.list false
        [SListItem.mk [InlineTok.text (str "a")] none
          [SListItem.mk [InlineTok.text (str "b")] none [],
           SListItem.mk [InlineTok.text (str "c")] none []],
         SListItem.mk [InlineTok.text (str "d")] none []]] ∧
    ∀ (l1 l2 : List Char) (i1 i2 : Nat) (k1 k2 : Option Bool) (t1 t2 : List Char),
      parseItemLine false l1 = some (i1, k1, t1) →
      parseItemLine false l2 = some (i2, k2, t2) →
      i1 < i2 →
      buildList false [l1, l2] [] [] =
        ([SListItem.mk (specInline t1) k1 [SListItem.mk (specInline t2) k2 []]], []) := by
  refine ⟨rfl, ?_⟩
  intro l1 l2 i1 i2 k1 k2 t1 t2 h1 h2 hlt
  have hde : decide (i2 ≤ i1) = false := decide_eq_false (by omega)
  simp [buildList, h1, h2, popAttach, finalizeStack, addChild, hde]

/-- C4 witness: the general half of the claim applied to the lines
`- a` and `  - b` (indents 0 and 2). -/
theorem claim4_witness :
    (parseItemLine false (str "- a") = some (0, none, str "a") ∧
      parseItemLine false (str "  - b") = some (2, none, str "b") ∧ 0 < 2) ∧
    buildList false [str "- a", str "  - b"] [] [] =
      ([SListItem.mk (specInline (str "a")) none
          [SListItem.mk (specInline (str "b")) none []]], []) :=
  ⟨⟨by decide, by decide, by decide⟩,
   claim4_list_nesting.2 (str "- a") (str "  - b") 0 2 none none (str "a") (str "b")
     (by decide) (by decide) (by decide)⟩

/-- C5 counterexample: the claim promises a non-empty header whenever a
`|` line is followed by a separator line, but the header line `|` (with
separator `-|-` next) has no nonempty cell, so the emitted table has
`header = []` — `header.length > 0` fails. -/
theorem claim5_counterexample :
    specTokenize "|\n-|-" = some [SBlock.table [] []] ∧ ¬ (0 : Nat) > 0 :=
  ⟨rfl, by omega⟩

/-- C5 (amended): spec-modelled table detection at the dispatch point —
when the current line contains `|` and the next line is a dash/colon
separator, one segmenter step emits a table whose header is the list of
the header line's (trimmed, edge-stripped) cells, each inline-lexed —
non-empty whenever the header line has at least one nonempty cell — and
whose rows are the following `|` lines; when the next line is not a
separator but contains `|`, the step emits a table with an empty header
whose rows are all the matching `|` lines from the current line on. -/
theorem claim5_table_detection (f : Nat) (l next : List Char) (rest : List (List Char))
    (h0 : (trimL l).isEmpty = false)
    (h1 : isFenceLine (trimL l) = false)
    (h2 : isHrLine (trimL l) = false)
    (h3 : sBqCollect l = false)
    (h4 : parseItemLine false l = none)
    (h5 : parseItemLine true l = none)
    (h6 : parseHeading (trimL l) = none)
    (h7 : containsPipe (trimL l) = true) :
    (isSepLine (trimL next) = true →
      specBlocksF (f + 1) (l :: next :: rest) =
        (specBlocksF f (rest.dropWhile isRowLine)).map
          (fun ts => SBlock.table ((tableCells (trimL l)).map specInline)
            ((rest.takeWhile isRowLine).map rowOf) :: ts) ∧
      (tableCells (trimL l) ≠ [] → (tableCells (trimL l)).map specInline ≠ [])) ∧
    (isSepLine (trimL next) = false → containsPipe (trimL next) = true →
      specBlocksF (f + 1) (l :: next :: rest) =
        (specBlocksF f ((l :: next :: rest).dropWhile isRowLine)).map
          (fun ts => SBlock.table []
            (((l :: next :: rest).takeWhile isRowLine).map rowOf) :: ts)) := by
  have hbq : ¬(sBqCollect l = true ∧ ¬(trimL l).isEmpty = true) := by
    intro hh
    rw [h3] at hh
    exact absurd hh.1 (by simp)
  constructor
  · intro hsep
    constructor
    · simp only [specBlocksF]
      rw [if_neg (by simp [h0]), if_neg (by simp [h1]), if_neg (by simp [h2]),
        if_neg hbq, if_neg (by simp [h4]), if_neg (by simp [h5]), h6]
      rw [if_pos ⟨h7, show (isSepLine (trimL next) || containsPipe (trimL next)) = true by
        rw [hsep]; rfl⟩]
      rw [if_pos hsep]
    · intro hne
      simpa using hne
  · intro hsep hpipe
    simp only [specBlocksF]
    rw [if_neg (by simp [h0]), if_neg (by simp [h1]), if_neg (by simp [h2]),
      if_neg hbq, if_neg (by simp [h4]), if_neg (by simp [h5]), h6]
    rw [if_pos ⟨h7, show (isSepLine (trimL next) || containsPipe (trimL next)) = true by
      rw [hsep, hpipe]; rfl⟩]
    rw [if_neg (by simp [hsep])]

/-- C5 witness: the amended theorem applied to the header line `a|b`
with separator `-|-` and one body row `c|d`. -/
theorem claim5_witness :
    isSepLine (trimL (str "-|-")) = true ∧
    specBlocksF 2 [str "a|b", str "-|-", str "c|d"] =
      (specBlocksF 1 (([str "c|d"] : List (List Char)).dropWhile isRowLine)).map
        (fun ts => SBlock.table ((tableCells (trimL (str "a|b"))).map specInline)
          ((([str "c|d"] : List (List Char)).takeWhile isRowLine).map rowOf) :: ts) :=
  ⟨by decide,
   ((claim5_table_detection 1 (str "a|b") (str "-|-") [str "c|d"]
      (by decide) (by decide) (by decide) (by decide) (by decide) (by decide)
      (by decide) (by decide)).1 (by decide)).1⟩

/-! ## Plain-text lemmas for the spec inline lexer (claim C8) -/

/-- A character that is neither a marker character, an atomic-pattern
character nor a backslash. -/
def plainChar (c : Char) : Bool :=
  !(c == '*' || c == '_' || c == '~' || c == '=' || c == '^' || c == btick ||
    c == '[' || c == ']' || c == '(' || c == ')' || c == '!' || c == '\\')

/-- A plain character differs from every non-plain character. -/
lemma plain_ne_aux (c x : Char) (h : plainChar c = true) (hx : plainChar x = false) :
    (c == x) = false := by
  cases hv : c == x with
  | false => rfl
  | true =>
    have hcx := eq_of_beq hv
    subst hcx
    rw [h] at hx
    cases hx

/-- Expanding plain working text is the identity. -/
lemma expandE_map_ch : ∀ cs : List Char, expandE (cs.map EChar.ch) = cs := by
  intro cs
  induction cs with
  | nil => rfl
  | cons c rest ih => simp [expandE] at ih ⊢; exact ih

/-- Preprocessing backslash-free text leaves every character plain. -/
lemma preprocessEsc_no_bs : ∀ cs : List Char, (∀ c ∈ cs, (c == '\\') = false) →
    preprocessEsc cs = cs.map EChar.ch := by
  intro cs
  induction cs with
  | nil => intro _; rfl
  | cons c rest ih =>
    intro h
    have hc : ¬c = '\\' := by
      intro hh
      subst hh
      have := h '\\' (List.mem_cons_self _ _)
      simp at this
    cases rest with
    | nil => rw [preprocessEsc, if_neg hc]; rfl
    | cons d rest2 =>
      rw [preprocessEsc, if_neg hc,
        ih (fun x hx => h x (List.mem_cons_of_mem c hx))]
      rfl

/-- A marker whose head character does not occur in plain text never
starts there. -/
lemma eIndexOfAux_ch_none (p : Char) (ps : List Char) :
    ∀ (xs : List Char) (i : Nat), (∀ c ∈ xs, (c == p) = false) →
      eIndexOfAux (p :: ps) (xs.map EChar.ch) i = none := by
  intro xs
  induction xs with
  | nil => intro i _; rfl
  | cons a tl ih =>
    intro i h
    have ha := h a (List.mem_cons_self _ _)
    show eIndexOfAux (p :: ps) (EChar.ch a :: tl.map EChar.ch) i = none
    rw [eIndexOfAux, if_neg (by simp [eStartsWith, eIsChar, ha])]
    exact ih (i + 1) (fun x hx => h x (List.mem_cons_of_mem a hx))

/-- No candidate for a marker whose head character is absent. -/
lemma eMarkerCandidate_ch_none (xs : List Char) (ty : SpecTy) (p : Char) (ps : List Char)
    (h : ∀ c ∈ xs, (c == p) = false) :
    eMarkerCandidate (xs.map EChar.ch) ty (p :: ps) = none := by
  rw [eMarkerCandidate, eIndexOfFrom, List.drop_zero, eIndexOfAux_ch_none p ps xs 0 h]

/-- Scanning for `~~` past the opening tilde of a subscript span finds
nothing: the inner text has no tilde and the closing tilde stands at
the very end. -/
lemma tilde_double_scan : ∀ (xs : List Char) (i : Nat), (∀ c ∈ xs, (c == '~') = false) →
    eIndexOfAux ['~', '~'] (xs.map EChar.ch ++ [EChar.ch '~']) i = none := by
  intro xs
  induction xs with
  | nil => intro i _; rfl
  | cons a tl ih =>
    intro i h
    have ha := h a (List.mem_cons_self _ _)
    show eIndexOfAux ['~', '~'] (EChar.ch a :: (tl.map EChar.ch ++ [EChar.ch '~'])) i = none
    rw [eIndexOfAux, if_neg (by simp [eStartsWith, eIsChar, ha])]
    exact ih (i + 1) (fun x hx => h x (List.mem_cons_of_mem a hx))

/-- Scanning for a single `~` past the opening tilde finds exactly the
closing tilde, at distance `xs.length`. -/
lemma tilde_single_scan : ∀ (xs : List Char) (i : Nat), (∀ c ∈ xs, (c == '~') = false) →
    eIndexOfAux ['~'] (xs.map EChar.ch ++ [EChar.ch '~']) i = some (i + xs.length) := by
  intro xs
  induction xs with
  | nil => intro i _; rfl
  | cons a tl ih =>
    intro i h
    have ha := h a (List.mem_cons_self _ _)
    show eIndexOfAux ['~'] (EChar.ch a :: (tl.map EChar.ch ++ [EChar.ch '~'])) i = some (i + (a :: tl).length)
    rw [eIndexOfAux, if_neg (by simp [eStartsWith, eIsChar, ha])]
    rw [ih (i + 1) (fun x hx => h x (List.mem_cons_of_mem a hx))]
    congr 1
    simp [List.length_cons]
    omega

/-- A leftmost-match scan with a matcher rejecting every suffix finds
nothing. -/
lemma eFirstMatchAux_none (g : List EChar → Option EAtom) :
    ∀ s : List EChar, (∀ n : Nat, g (s.drop n) = none) → ∀ i : Nat, eFirstMatchAux g s i = none := by
  intro s
  induction s with
  | nil =>
    intro h i
    have h0 : g ([] : List EChar) = none := by simpa using h 0
    show (if (g ([] : List EChar)).isSome = true then
        Option.map (fun x => (i, x)) (g ([] : List EChar)) else none) = none
    rw [h0]
    rfl
  | cons e tl ih =>
    intro h i
    have h0 : g (e :: tl) = none := by simpa using h 0
    show (if (g (e :: tl)).isSome = true then
        Option.map (fun x => (i, x)) (g (e :: tl))
      else eFirstMatchAux g tl (i + 1)) = none
    rw [h0]
    simpa using ih (fun n => by simpa using h (n + 1)) (i + 1)

/-- The image pattern needs a plain `!` at its head. -/
lemma eMatchImage_ch_none (ds : List Char) (h : ∀ c ∈ ds, (c == '!') = false) :
    eMatchImage (ds.map EChar.ch) = none := by
  cases ds with
  | nil => rfl
  | cons a tl =>
    cases tl with
    | nil => rfl
    | cons b tl2 =>
      have ha := h a (List.mem_cons_self _ _)
      simp [eMatchImage, eIsChar, ha]

/-- The link pattern needs a plain `[` at its head. -/
lemma eMatchLink_ch_none (ds : List Char) (h : ∀ c ∈ ds, (c == '[') = false) :
    eMatchLink (ds.map EChar.ch) = none := by
  cases ds with
  | nil => rfl
  | cons a tl =>
    have ha := h a (List.mem_cons_self _ _)
    simp [eMatchLink, eIsChar, ha]

/-- The inline-code pattern needs a plain backquote at its head. -/
lemma eMatchCode_ch_none (ds : List Char) (h : ∀ c ∈ ds, (c == btick) = false) :
    eMatchCode (ds.map EChar.ch) = none := by
  cases ds with
  | nil => rfl
  | cons a tl =>
    have ha := h a (List.mem_cons_self _ _)
    simp [eMatchCode, eIsChar, ha]

/-- The atomic search finds nothing in text whose characters include
none of `!`, `[` and the backquote. -/
lemma eFindAtomic_ch_none (ds : List Char)
    (h1 : ∀ c ∈ ds, (c == '!') = false) (h2 : ∀ c ∈ ds, (c == '[') = false)
    (h3 : ∀ c ∈ ds, (c == btick) = false) :
    eFindAtomic (ds.map EChar.ch) = none := by
  have himg : ∀ n : Nat, eMatchImage ((ds.map EChar.ch).drop n) = none := by
    intro n
    rw [← List.map_drop]
    exact eMatchImage_ch_none _ (fun c hc => h1 c (List.drop_subset n ds hc))
  have hlnk : ∀ n : Nat, eMatchLink ((ds.map EChar.ch).drop n) = none := by
    intro n
    rw [← List.map_drop]
    exact eMatchLink_ch_none _ (fun c hc => h2 c (List.drop_subset n ds hc))
  have hcode : ∀ n : Nat, eMatchCode ((ds.map EChar.ch).drop n) = none := by
    intro n
    rw [← List.map_drop]
    exact eMatchCode_ch_none _ (fun c hc => h3 c (List.drop_subset n ds hc))
  rw [eFindAtomic, eFirstMatchAux_none _ _ himg 0, eFirstMatchAux_none _ _ hlnk 0,
    eFirstMatchAux_none _ _ hcode 0]
  rfl

/-- The spec inline lexer turns nonempty plain text into a single text
token. -/
lemma plain_inline (f : Nat) (inner : List Char) (hne : inner ≠ [])
    (hp : ∀ c ∈ inner, plainChar c = true) :
    specInlineF (f + 1) (inner.map EChar.ch) = [InlineTok.text inner] := by
  have hno : ∀ x : Char, plainChar x = false → ∀ c ∈ inner, (c == x) = false :=
    fun x hx c hc => plain_ne_aux c x (hp c hc) hx
  have hchoose : eChoose (inner.map EChar.ch) = none := by
    rw [eChoose,
      eFindAtomic_ch_none inner (hno '!' (by decide)) (hno '[' (by decide))
        (hno btick (by decide))]
    rw [show eFindStyled (inner.map EChar.ch) = none from ?_]
    simp only [eFindStyled, specMarkers, List.foldl_cons, List.foldl_nil]
    rw [eMarkerCandidate_ch_none inner _ '*' _ (hno '*' (by decide)),
      eMarkerCandidate_ch_none inner _ '_' _ (hno '_' (by decide)),
      eMarkerCandidate_ch_none inner _ '*' _ (hno '*' (by decide)),
      eMarkerCandidate_ch_none inner _ '_' _ (hno '_' (by decide)),
      eMarkerCandidate_ch_none inner _ '*' _ (hno '*' (by decide)),
      eMarkerCandidate_ch_none inner _ '_' _ (hno '_' (by decide)),
      eMarkerCandidate_ch_none inner _ '~' _ (hno '~' (by decide)),
      eMarkerCandidate_ch_none inner _ '=' _ (hno '=' (by decide)),
      eMarkerCandidate_ch_none inner _ '~' _ (hno '~' (by decide)),
      eMarkerCandidate_ch_none inner _ '^' _ (hno '^' (by decide))]
    rfl
  have hne' : (inner.map EChar.ch).isEmpty = false := by
    cases inner with
    | nil => exact absurd rfl hne
    | cons a tl => rfl
  rw [specInlineF_none_step f _ hne' hchoose, expandE_map_ch]

/-- The spec inline lexer returns nothing on empty working text. -/
lemma specInlineF_nil (g : Nat) : specInlineF g [] = [] := by
  cases g with
  | zero => rfl
  | succ n => rfl

/-- The text run before a match at offset zero is empty. -/
lemma ePreTok_zero (t : List EChar) : ePreTok t 0 = [] := by
  simp [ePreTok]

/-- No character of `~inner~` equals a given non-plain, non-tilde
character. -/
lemma tfull_no (inner : List Char) (hp : ∀ c ∈ inner, plainChar c = true)
    (x : Char) (hx : plainChar x = false) (htx : ('~' == x) = false) :
    ∀ c ∈ ('~' :: inner) ++ ['~'], (c == x) = false := by
  intro c hc
  rw [List.cons_append] at hc
  rcases List.mem_cons.mp hc with h | h2
  · subst h; exact htx
  rcases List.mem_append.mp h2 with h | h
  · exact plain_ne_aux c x (hp c h) hx
  · rw [List.mem_singleton] at h
    subst h
    exact htx

/-- One full scan step on `~inner~` (plain nonempty `inner`): the
subscript candidate wins and the result is one subscript token holding
the inner text. -/
lemma subscript_step (f : Nat) (inner : List Char) (hne : inner ≠ [])
    (hp : ∀ c ∈ inner, plainChar c = true) :
    specInlineF (f + 1 + 1) ((('~' :: inner) ++ ['~']).map EChar.ch) =
      [InlineTok.subscript [InlineTok.text inner]] := by
  have htilde : ∀ c ∈ inner, (c == '~') = false :=
    fun c hc => plain_ne_aux c '~' (hp c hc) (by decide)
  have hatomic : eFindAtomic ((('~' :: inner) ++ ['~']).map EChar.ch) = none :=
    eFindAtomic_ch_none _ (tfull_no inner hp '!' (by decide) (by decide))
      (tfull_no inner hp '[' (by decide) (by decide))
      (tfull_no inner hp btick (by decide) (by decide))
  have hmapsplit : (inner ++ ['~']).map EChar.ch = inner.map EChar.ch ++ [EChar.ch '~'] := by
    simp
  have hfirst : eIndexOfFrom ((('~' :: inner) ++ ['~']).map EChar.ch) ['~'] 0 = some 0 := rfl
  have hsecond : eIndexOfFrom ((('~' :: inner) ++ ['~']).map EChar.ch) ['~']
      (0 + (['~'] : List Char).length) = some (1 + inner.length) := by
    show eIndexOfAux ['~'] ((inner ++ ['~']).map EChar.ch) 1 = some (1 + inner.length)
    rw [hmapsplit]
    exact tilde_single_scan inner 1 htilde
  have hdouble : eIndexOfFrom ((('~' :: inner) ++ ['~']).map EChar.ch) ['~', '~'] 0 = none := by
    cases inner with
    | nil => exact absurd rfl hne
    | cons b bs =>
      have hb : (b == '~') = false := htilde b (List.mem_cons_self _ _)
      show eIndexOfAux ['~', '~']
        (EChar.ch '~' :: EChar.ch b :: (bs ++ ['~']).map EChar.ch) 0 = none
      rw [eIndexOfAux, if_neg (by simp [eStartsWith, eIsChar, hb])]
      have hms : (bs ++ ['~']).map EChar.ch = bs.map EChar.ch ++ [EChar.ch '~'] := by simp
      rw [hms]
      exact tilde_double_scan (b :: bs) 1 htilde
  have hsub : eMarkerCandidate ((('~' :: inner) ++ ['~']).map EChar.ch) SpecTy.subscript ['~'] =
      some ⟨SpecTy.subscript, ['~'], 0, 1 + inner.length⟩ := by
    simp only [eMarkerCandidate, hfirst, hsecond]
    simp [hne]
  have hstk : eMarkerCandidate ((('~' :: inner) ++ ['~']).map EChar.ch)
      SpecTy.strikethrough ['~', '~'] = none := by
    rw [eMarkerCandidate, hdouble]
  have hstyled : eFindStyled ((('~' :: inner) ++ ['~']).map EChar.ch) =
      some ⟨SpecTy.subscript, ['~'], 0, 1 + inner.length⟩ := by
    simp only [eFindStyled, specMarkers, List.foldl_cons, List.foldl_nil]
    rw [eMarkerCandidate_ch_none _ _ '*' _ (tfull_no inner hp '*' (by decide) (by decide)),
      eMarkerCandidate_ch_none _ _ '_' _ (tfull_no inner hp '_' (by decide) (by decide)),
      eMarkerCandidate_ch_none _ _ '*' _ (tfull_no inner hp '*' (by decide) (by decide)),
      eMarkerCandidate_ch_none _ _ '_' _ (tfull_no inner hp '_' (by decide) (by decide)),
      eMarkerCandidate_ch_none _ _ '*' _ (tfull_no inner hp '*' (by decide) (by decide)),
      eMarkerCandidate_ch_none _ _ '_' _ (tfull_no inner hp '_' (by decide) (by decide)),
      hstk,
      eMarkerCandidate_ch_none _ _ '=' _ (tfull_no inner hp '=' (by decide) (by decide)),
      hsub,
      eMarkerCandidate_ch_none _ _ '^' _ (tfull_no inner hp '^' (by decide) (by decide))]
    rfl
  have hchoose : eChoose ((('~' :: inner) ++ ['~']).map EChar.ch) =
      some (EFound.styled ⟨SpecTy.subscript, ['~'], 0, 1 + inner.length⟩) := by
    rw [eChoose, hatomic, hstyled]
  rw [specInlineF]
  rw [if_neg (by simp), hchoose]
  have hslice : (((('~' :: inner) ++ ['~']).map EChar.ch).drop
        (0 + (['~'] : List Char).length)).take (1 + inner.length - (0 + (['~'] : List Char).length)) =
      inner.map EChar.ch := by
    show ((inner ++ ['~']).map EChar.ch).take (1 + inner.length - (0 + (['~'] : List Char).length)) =
      inner.map EChar.ch
    rw [hmapsplit,
      show 1 + inner.length - (0 + (['~'] : List Char).length) = (inner.map EChar.ch).length from by
        simp [Nat.add_comm]]
    exact List.take_left _ _
  have hrest : ((('~' :: inner) ++ ['~']).map EChar.ch).drop
      (1 + inner.length + (['~'] : List Char).length) = [] := by
    apply List.drop_eq_nil_of_le
    simp
    omega
  simp only [hslice, hrest, plain_inline f inner hne hp, specInlineF_nil, ePreTok_zero,
    mkSpecStyled, List.nil_append, List.append_nil]

/-- C8: tilde resolution in the spec-modelled inline lexer — a pair of
single `~` markers around nonempty plain inner text produces a
subscript token (here proved for every such inner text); only `~~`
produces strikethrough (`~~x~~`); and a subscript or superscript pair
with zero characters between the markers is rejected, the markers
remaining literal text (`~~`, `^^`). -/
theorem claim8_tilde_markers :
    (∀ inner : List Char, inner ≠ [] → (∀ c ∈ inner, plainChar c = true) →
      specInline (('~' :: inner) ++ ['~']) = [InlineTok.subscript [InlineTok.text inner]]) ∧
    specInline (str "~~x~~") = [InlineTok.strikethrough [InlineTok.text (str "x")]] ∧
    specInline (str "~~") = [InlineTok.text (str "~~")] ∧
    specInline (str "^^") = [InlineTok.text (str "^^")] := by
  refine ⟨?_, rfl, rfl, rfl⟩
  intro inner hne hp
  have hnb : ∀ c ∈ ('~' :: inner) ++ ['~'], (c == '\\') = false :=
    tfull_no inner hp '\\' (by decide) (by decide)
  rw [specInline, preprocessEsc_no_bs _ hnb]
  have hlen : ((('~' :: inner) ++ ['~']).map EChar.ch).length + 1 = inner.length + 1 + 1 + 1 := by
    simp
  rw [hlen]
  exact subscript_step (inner.length + 1) inner hne hp

/-- C8 witness: the general subscript half applied to the inner text
`2` (the input `~2~`, as in `H~2~O`). -/
theorem claim8_witness :
    (str "2" ≠ [] ∧ ∀ c ∈ str "2", plainChar c = true) ∧
    specInline (('~' :: str "2") ++ ['~']) = [InlineTok.subscript [InlineTok.text (str "2")]] :=
  ⟨⟨by decide, by decide⟩, claim8_tilde_markers.1 (str "2") (by decide) (by decide)⟩

end Cattown
